import Mathlib

/-!
Shallow embedding of the HDC (hyperdimensional computing) classifier core
of this repository, together with theorems checking the specification's
claims against it.

Hypervectors are embedded as `List Bool` (binary mode, `BIPOLAR_MODE = 0`,
the repository default) or as `List ℤ` (bipolar mode, where bundled
accumulators carry integer sums).  The configuration constants
(`VECTOR_DIMENSION`, `NUM_LEVELS`, `MIN_LEVEL`, `MAX_LEVEL`,
`N_GRAM_SIZE`, `CUTTING_ANGLE_THRESHOLD`, ...) are passed explicitly as
parameters.  C `double` arithmetic is modelled by exact rationals, C `int`
division by truncating integer division, and the 32-bit xorshift RNG and
16-bit GA genes by naturals reduced modulo `2^32` / `2^16` where the C
code can overflow.
-/

namespace HDC

/-! ### operations.c -/

/-- Binding of two binary hypervectors (`bind`, operations.c, binary branch):
`result->data[i] = vector1->data[i] ^ vector2->data[i]`. -/
def bind (vector1 vector2 : List Bool) : List Bool :=
  List.zipWith xor vector1 vector2

/-- Bipolar bundling (`bundle`, operations.c, bipolar branch): elementwise sum. -/
def bundle (vector1 vector2 : List ℤ) : List ℤ :=
  List.zipWith (· + ·) vector1 vector2

/-- Per-bit count of set bits across a list of binary vectors
(the `count_true` accumulator of `bundle_multi`, operations.c). -/
def count_true (vectors : List (List Bool)) (i : ℕ) : ℕ :=
  (vectors.map (fun v => if v.getD i false then 1 else 0)).sum

/-- Binary `bundle_multi` (operations.c): after zeroing the result, per-bit
majority `result->data[i] = (count_true[i] >= num_vectors / 2) ? 1 : 0`,
where `num_vectors / 2` is C integer division. -/
def bundle_multi (D : ℕ) (vectors : List (List Bool)) : List Bool :=
  (List.range D).map (fun i => decide (vectors.length / 2 ≤ count_true vectors i))

/-- Bipolar `bundle_multi` (operations.c): result starts from zero and
accumulates the elementwise sum of all input vectors. -/
def bundle_multi_bipolar (D : ℕ) (vectors : List (List ℤ)) : List ℤ :=
  vectors.foldl (fun result v => List.zipWith (· + ·) result v)
    (List.replicate D (0 : ℤ))

/-- Cyclic permutation (`permute`, operations.c).  For a positive offset the C
loop writes `result->data[(i + offset) % D] = vector->data[i]` into a fresh
`create_vector()` buffer (all-false in binary mode); for a non-positive offset
it reads `result->data[i] = vector->data[(i + |offset|) % D]`. -/
def permute (vector : List Bool) (offset : ℤ) : List Bool :=
  if 0 < offset then
    (List.range vector.length).foldl
      (fun result i =>
        result.set ((i + offset.toNat) % vector.length) (vector.getD i false))
      (List.replicate vector.length false)
  else
    (List.range vector.length).map
      (fun i => vector.getD ((i + (-offset).toNat) % vector.length) false)

/-- Raw Hamming distance: the `distance` counter of `hamming_distance`
(operations.c), the number of positions in `[0, D)` where the two vectors
differ. -/
def hamming_count (D : ℕ) (vec1 vec2 : List Bool) : ℕ :=
  ((Finset.range D).filter (fun i => vec1.getD i false ≠ vec2.getD i false)).card

/-- Normalized Hamming similarity (`hamming_distance`, operations.c):
`1.0 - 2.0 * (distance / D)`, projected onto `[-1, 1]`.  In binary mode this
is what `similarity_check` returns. -/
def hamming_distance (D : ℕ) (vec1 vec2 : List Bool) : ℚ :=
  1 - 2 * ((hamming_count D vec1 vec2 : ℚ) / (D : ℚ))

/-! ### encoder.c : quantizer -/

/-- C cast of a `double` to `int`: truncation toward zero. -/
def c_trunc (q : ℚ) : ℤ :=
  if 0 ≤ q then ⌊q⌋ else -⌊-q⌋

/-- Quantizer `get_signal_level` (encoder.c): values at or below `MIN_LEVEL`
map to level 0, values at or above `MAX_LEVEL` map to `NUM_LEVELS - 1`, and
anything in between is linearly mapped and truncated by the C `(int)` cast. -/
def get_signal_level (minLevel maxLevel : ℚ) (numLevels : ℕ) (emg_value : ℚ) : ℤ :=
  if emg_value ≤ minLevel then 0
  else if maxLevel ≤ emg_value then (numLevels : ℤ) - 1
  else
    c_trunc ((emg_value - minLevel) / (maxLevel - minLevel) * (((numLevels : ℤ) - 1 : ℤ) : ℚ))

/-! ### assoc_mem.c -/

/-- Associative memory state (`struct associative_memory`): one prototype
hypervector and one nonnegative sample count per class.  In bipolar mode the
prototypes carry integer bundling sums. -/
structure AssocMem where
  class_vectors : List (List ℤ)
  counts : List ℕ
deriving Repr, DecidableEq

/-- Dot product of two bipolar vectors (the `dot_product` accumulator of
`cosine_similarity`, operations.c). -/
def dot_product (vec1 vec2 : List ℤ) : ℤ :=
  (List.zipWith (· * ·) vec1 vec2).sum

/-- Squared Euclidean norm of a bipolar vector (the `norm` accumulators of
`cosine_similarity`, operations.c). -/
def norm_sq (vec : List ℤ) : ℤ :=
  (vec.map (fun x => x * x)).sum

/-- Exact decision of the floating-point comparison
`cosine_similarity(v1, v2) < threshold`, i.e. of
`dot / (sqrt n1 * sqrt n2) < threshold` for positive squared norms `n1, n2`,
carried out by sign analysis and squaring so that no square root is needed. -/
def cosine_lt (dot : ℤ) (n1 n2 : ℤ) (threshold : ℚ) : Bool :=
  if 0 ≤ threshold then
    decide (dot < 0) || decide ((dot : ℚ) ^ 2 < threshold ^ 2 * ((n1 * n2 : ℤ) : ℚ))
  else
    decide (dot < 0) && decide (threshold ^ 2 * ((n1 * n2 : ℤ) : ℚ) < (dot : ℚ) ^ 2)

/-- Bipolar `add_to_assoc_mem` (assoc_mem.c).  Returns `none` where the C code
calls `exit`: on an invalid class id, and where `similarity_check` returns the
error value `-2` (a zero-norm operand of `cosine_similarity`).  Otherwise it
returns the updated memory and the C function's `int` result as a `Bool`:
 * `count[cls] == 0`: the prototype becomes `hv`, the count becomes 1, true;
 * else if the similarity is below the threshold: the prototype is bundled
   with `hv` (via the `temp_vector`, which `create_vector()` fills with `-1`
   in bipolar mode and which is only overwritten when the count is positive),
   the count is incremented, true;
 * else: the state is returned unchanged, false. -/
def add_to_assoc_mem (threshold : ℚ) (mem : AssocMem) (sample_hv : List ℤ)
    (class_id : ℕ) : Option (AssocMem × Bool) :=
  if class_id < mem.class_vectors.length then
    let memory_hv := mem.class_vectors.getD class_id []
    if mem.counts.getD class_id 0 = 0 then
      some (⟨mem.class_vectors.set class_id sample_hv, mem.counts.set class_id 1⟩, true)
    else
      if norm_sq memory_hv = 0 ∨ norm_sq sample_hv = 0 then
        none
      else if cosine_lt (dot_product memory_hv sample_hv) (norm_sq memory_hv)
          (norm_sq sample_hv) threshold then
        let temp_vector :=
          if 0 < mem.counts.getD class_id 0 then bundle memory_hv sample_hv
          else List.replicate memory_hv.length (-1 : ℤ)
        some (⟨mem.class_vectors.set class_id temp_vector,
               mem.counts.set class_id (mem.counts.getD class_id 0 + 1)⟩, true)
      else
        some (mem, false)
  else
    none

/-- Binary-mode `classify` (assoc_mem.c): scan the class prototypes in index
order, keeping the first strict improvement over `best_similarity = -1.0`,
where the similarity is the normalized Hamming similarity of
`similarity_check`.  Returns `-1` when no class ever exceeds `-1`. -/
def classify (D : ℕ) (class_vectors : List (List Bool)) (sample_hv : List Bool) : ℤ :=
  ((List.range class_vectors.length).foldl
    (fun best i =>
      let similarity := hamming_distance D (class_vectors.getD i []) sample_hv
      if best.2 < similarity then ((i : ℤ), similarity) else best)
    ((-1 : ℤ), (-1 : ℚ))).1

/-- The `normalize` routine (assoc_mem.c): for every class with a strictly
positive count, divide each prototype element by the count using C integer
division (truncation toward zero); other classes are left untouched. -/
def normalize (mem : AssocMem) : AssocMem :=
  ⟨(List.range mem.class_vectors.length).map (fun i =>
      let count := mem.counts.getD i 0
      if 0 < count then
        (mem.class_vectors.getD i []).map (fun x => Int.tdiv x (count : ℤ))
      else mem.class_vectors.getD i []),
   mem.counts⟩

/-! ### evaluator.c -/

/-- The `mode` helper (evaluator.c): plurality value of an array, starting
from `max_value = 0, max_count = 0`; a strictly larger count wins, and on a
count tie the smaller value wins ("as Matlab implementation"). -/
def mode (array : List ℤ) : ℤ :=
  (array.foldl
    (fun acc x =>
      let count := array.count x
      if acc.2 < count then (x, count)
      else if count = acc.2 ∧ x < acc.1 then (x, acc.2) else acc)
    ((0 : ℤ), (0 : ℕ))).1

/-- The fields of `struct timeseries_eval_result` that the counting claims
are about.  The confusion matrix is a total function on (true, predicted)
label pairs; the C array only holds the `[0, K) × [0, K)` window of it. -/
structure EvalResult where
  correct : ℕ
  not_correct : ℕ
  transition_error : ℕ
  total : ℕ
  confusion_matrix : ℤ → ℤ → ℕ

/-- A zero-initialized `struct timeseries_eval_result`. -/
def initEvalResult : EvalResult :=
  ⟨0, 0, 0, 0, fun _ _ => 0⟩

/-- Increment one cell of the confusion matrix
(`result.confusion_matrix[actual_label][predicted_label]++`). -/
def bump_confusion (confusion : ℤ → ℤ → ℕ) (actual predicted : ℤ) : ℤ → ℤ → ℕ :=
  fun i j => if i = actual ∧ j = predicted then confusion i j + 1 else confusion i j

/-- The sequence of loop indices of
`for (j = 0; j < testing_samples - N_GRAM_SIZE + 1; j += N_GRAM_SIZE)`:
the multiples of `n` in `[0, T - n]`, in increasing order. -/
def window_starts (T n : ℕ) : List ℕ :=
  (List.range T).filter (fun j => j + n ≤ T ∧ j % n = 0)

/-- The window of `n` labels starting at sample `j`: the argument
`testing_labels + j` that the direct evaluator passes to `mode`. -/
def window_of (labels : List ℤ) (n j : ℕ) : List ℤ :=
  (labels.drop j).take n

/-- One iteration of the direct n-gram evaluation loop
(`evaluate_model_timeseries_direct`, evaluator.c, non-rolling branch).
`predict j` stands for `classify(assoc_mem, encode_timeseries(window at j))`;
the C code exits when it is `-1`, which is modelled by `none`.  A correct
prediction counts as `correct`; a wrong one counts as `transition_error`
when `labels[j] != labels[j + n - 1]` and as `not_correct` otherwise. -/
def eval_direct_step (labels : List ℤ) (n : ℕ) (predict : ℕ → ℤ)
    (acc : EvalResult) (j : ℕ) : Option EvalResult :=
  let actual_label := mode (window_of labels n j)
  let predicted_label := predict j
  if predicted_label = -1 then none
  else
    some { acc with
      confusion_matrix := bump_confusion acc.confusion_matrix actual_label predicted_label
      correct := if predicted_label = actual_label then acc.correct + 1 else acc.correct
      transition_error :=
        if predicted_label ≠ actual_label ∧ labels.getD j 0 ≠ labels.getD (j + n - 1) 0 then
          acc.transition_error + 1
        else acc.transition_error
      not_correct :=
        if predicted_label ≠ actual_label ∧ labels.getD j 0 = labels.getD (j + n - 1) 0 then
          acc.not_correct + 1
        else acc.not_correct }

/-- Direct n-gram evaluator (`evaluate_model_timeseries_direct`, evaluator.c):
step through the windows, then set `total = correct + not_correct +
transition_error`. -/
def evaluate_model_timeseries_direct (n : ℕ) (testing_labels : List ℤ)
    (predict : ℕ → ℤ) : Option EvalResult :=
  ((window_starts testing_labels.length n).foldlM
      (eval_direct_step testing_labels n predict) initEvalResult).map
    (fun r => { r with total := r.correct + r.not_correct + r.transition_error })

/-- One iteration of the per-sample evaluation loop
(`evaluate_model_general_direct`, evaluator.c).  `predict j` stands for
`classify(assoc_mem, encode_general_data(testing_data[j]))`. -/
def eval_general_step (labels : List ℤ) (predict : ℕ → ℤ)
    (acc : EvalResult) (j : ℕ) : Option EvalResult :=
  let actual_label := labels.getD j 0
  let predicted_label := predict j
  if predicted_label = -1 then none
  else
    some { acc with
      confusion_matrix := bump_confusion acc.confusion_matrix actual_label predicted_label
      correct := if predicted_label = actual_label then acc.correct + 1 else acc.correct
      not_correct := if predicted_label ≠ actual_label then acc.not_correct + 1 else acc.not_correct }

/-- General (non-temporal) evaluator (`evaluate_model_general_direct`,
evaluator.c): classify every sample, then set `total = correct + not_correct`. -/
def evaluate_model_general_direct (testing_labels : List ℤ)
    (predict : ℕ → ℤ) : Option EvalResult :=
  ((List.range testing_labels.length).foldlM
      (eval_general_step testing_labels predict) initEvalResult).map
    (fun r => { r with total := r.correct + r.not_correct })

/-- Sum of the `K × K` window of a confusion matrix that the C array holds. -/
def confusion_sum (K : ℕ) (confusion : ℤ → ℤ → ℕ) : ℕ :=
  ∑ i ∈ Finset.range K, ∑ j ∈ Finset.range K, confusion (i : ℤ) (j : ℤ)

/-! ### item_mem.c : deterministic RNG and the B-driven continuous item memory -/

/-- The 32-bit xorshift step `item_mem_xorshift32` (item_mem.c), on naturals
reduced modulo `2^32`. -/
def item_mem_xorshift32 (state : ℕ) : ℕ :=
  let x := if state = 0 then 0x6d2b79f5 else state
  let x := (x ^^^ (x <<< 13)) % 4294967296
  let x := x ^^^ (x >>> 17)
  (x ^^^ (x <<< 5)) % 4294967296

/-- `item_mem_rand_range` (item_mem.c): next RNG value reduced into
`[0, max)`, together with the advanced state; `max = 0` returns 0 without
advancing the state.  The advanced state equals the drawn raw value. -/
def item_mem_rand_range (state : ℕ) (max : ℕ) : ℕ × ℕ :=
  if max = 0 then (0, state)
  else
    let x := item_mem_xorshift32 state
    (x % max, x)

/-- `item_mem_seed_from_permutation` (item_mem.c): FNV-1a-style hash of the
permutation array over 32-bit arithmetic, with 0 remapped to 1 and the empty
or missing permutation hashing to 1. -/
def item_mem_seed_from_permutation (perm : List ℕ) : ℕ :=
  if perm.length = 0 then 1
  else
    let hash := perm.foldl (fun hash p => ((hash ^^^ p) * 16777619) % 4294967296) 2166136261
    if hash = 0 then 1 else hash

/-- Binary branch of `generate_random_hv_with_rng` (item_mem.c): draw
`dimension` bits in index order (`data[i] = item_mem_rand_range(state, 2)`). -/
def generate_random_hv_with_rng : ℕ → ℕ → List Bool × ℕ
  | 0, state => ([], state)
  | dimension + 1, state =>
    let draw := item_mem_rand_range state 2
    let rest := generate_random_hv_with_rng dimension draw.2
    (decide (draw.1 = 1) :: rest.1, rest.2)

/-- One flip segment of `init_continuous_item_memory_with_B` (item_mem.c):
`for (k = prev_target; k < target; k++) { idx = permutation[k]; curr->data[idx] = !curr->data[idx]; }`. -/
def cim_flip_segment (permutation : List ℕ) (curr : List Bool)
    (prev_target target : ℕ) : List Bool :=
  (List.range' prev_target (target - prev_target)).foldl
    (fun w k =>
      let idx := permutation.getD k 0
      w.set idx (!w.getD idx false))
    curr

/-- Cumulative flip targets of `init_continuous_item_memory_with_B`
(item_mem.c): `flips = max(B[level-1], 0)`, `target = min(prev_target + flips, D)`. -/
def cim_target (D : ℕ) (B : List ℤ) : ℕ → ℕ
  | 0 => 0
  | level + 1 => min (cim_target D B level + (B.getD level 0).toNat) D

/-- Level ladder of `init_continuous_item_memory_with_B` (item_mem.c), starting
from a given level-0 vector: level `l+1` is level `l` with the flip segment
`permutation[cim_target l .. cim_target (l+1))` applied. -/
def cim_level (D : ℕ) (B : List ℤ) (permutation : List ℕ)
    (base : List Bool) : ℕ → List Bool
  | 0 => base
  | level + 1 =>
    cim_flip_segment permutation (cim_level D B permutation base level)
      (cim_target D B level) (cim_target D B (level + 1))

/-- `init_continuous_item_memory_with_B` (item_mem.c), binary mode: the level-0
vector is drawn with the RNG seeded from a hash of the permutation, and each
following level flips the next `B`-prescribed segment of the permutation. -/
def init_continuous_item_memory_with_B (D : ℕ) (num_levels : ℕ) (B : List ℤ)
    (permutation : List ℕ) : List (List Bool) :=
  if num_levels = 0 then []
  else
    let seed := item_mem_seed_from_permutation permutation
    let min_vector := (generate_random_hv_with_rng D seed).1
    (List.range num_levels).map (cim_level D B permutation min_vector)

/-! ### encoder.c : n-gram temporal encoding -/

/-- `encode_timeseries` (encoder.c) on the per-timestamp spatial hypervectors
`window = [encode_timestamp(emg_data[0]), ..., encode_timestamp(emg_data[n-1])]`:
start from the first, then `r = bind(permute(r, 1), encode_timestamp(window[i]))`
for `i` in `[1, n)`.  Binary mode, where `bind` is XOR. -/
def encode_timeseries (window : List (List Bool)) : List Bool :=
  match window with
  | [] => []
  | first :: rest => rest.foldl (fun r encoded => bind (permute r 1) encoded) first

/-- XOR-fold of a nonempty list of hypervectors (empty input gives `[]`). -/
def bind_fold (vectors : List (List Bool)) : List Bool :=
  match vectors with
  | [] => []
  | first :: rest => rest.foldl bind first

/-- The closed form claimed by the spec for the n-gram encoding: the `i`-th
timestamp contributes its spatial hypervector permuted by `n - 1 - i`
positions, and all contributions are XOR-bound together. -/
def ngram_closed_form (window : List (List Bool)) : List Bool :=
  bind_fold ((List.range window.length).map
    (fun i => permute (window.getD i []) ((window.length - 1 - i : ℕ) : ℤ)))

/-! ### asymItemMemory.c : GA RNG and the transfer mutation -/

/-- The 32-bit xorshift step `xorshift32` (asymItemMemory.c); the GA keeps its
own copy of the generator, identical to the item-memory one. -/
def xorshift32 (state : ℕ) : ℕ :=
  let x := if state = 0 then 0x6d2b79f5 else state
  let x := (x ^^^ (x <<< 13)) % 4294967296
  let x := x ^^^ (x >>> 17)
  (x ^^^ (x <<< 5)) % 4294967296

/-- The comparison `rng_uniform(rng_state) < rate` (asymItemMemory.c), where
`rng_uniform` is `xorshift32(state) / UINT32_MAX`, together with the advanced
state. -/
def rng_uniform_lt (state : ℕ) (rate : ℚ) : Bool × ℕ :=
  let x := xorshift32 state
  (decide ((x : ℚ) / 4294967295 < rate), x)

/-- `rng_range` (asymItemMemory.c): next RNG value reduced into `[0, max)`;
`max = 0` returns 0 without advancing the state. -/
def rng_range (state : ℕ) (max : ℕ) : ℕ × ℕ :=
  if max = 0 then (0, state)
  else
    let x := xorshift32 state
    (x % max, x)

/-- The donor search of `mutate_individual` (asymItemMemory.c): up to
`max_tries` random indices are drawn and the first one holding a strictly
positive gene is the donor; `none` if every try fails. -/
def find_donor (genes : List ℕ) (state : ℕ) : ℕ → Option ℕ × ℕ
  | 0 => (none, state)
  | tries + 1 =>
    let draw := rng_range state genes.length
    if 0 < genes.getD draw.1 0 then (some draw.1, draw.2)
    else find_donor genes draw.2 tries

/-- One gene step of `mutate_individual` (asymItemMemory.c): with probability
`mutation_rate`, pick a positive donor gene and a receiver gene (re-drawn away
from the donor when they collide and there is more than one gene), decrement
the donor and increment the receiver.  Genes are `uint16_t`, so the increment
wraps modulo `2^16`. -/
def mutate_step (mutation_rate : ℚ) (genes : List ℕ) (state : ℕ) : List ℕ × ℕ :=
  let trig := rng_uniform_lt state mutation_rate
  if trig.1 then
    match find_donor genes trig.2 (genes.length * 2) with
    | (none, s2) => (genes, s2)
    | (some donor, s2) =>
      let draw := rng_range s2 genes.length
      let pick :=
        if draw.1 = donor ∧ 1 < genes.length then
          let draw2 := rng_range draw.2 (genes.length - 1)
          ((donor + 1 + draw2.1) % genes.length, draw2.2)
        else draw
      let after_donor := genes.set donor (genes.getD donor 0 - 1)
      (after_donor.set pick.1 ((after_donor.getD pick.1 0 + 1) % 65536), pick.2)
  else (genes, trig.2)

/-- `mutate_individual` (asymItemMemory.c): genomes of at most one gene are
left untouched; otherwise one `mutate_step` per gene position is applied. -/
def mutate_individual (mutation_rate : ℚ) (genes : List ℕ) (state : ℕ) :
    List ℕ × ℕ :=
  if genes.length ≤ 1 then (genes, state)
  else
    (List.range genes.length).foldl
      (fun acc _ => mutate_step mutation_rate acc.1 acc.2) (genes, state)

/-! ### List helpers -/

theorem getD_map_range {α : Type*} (n : ℕ) (f : ℕ → α) (i : ℕ) (d : α) (hi : i < n) :
    ((List.range n).map f).getD i d = f i := by
  rw [List.getD_eq_getElem _ d (by simpa using hi)]
  simp

theorem getD_set_ne {α : Type*} (l : List α) (i j : ℕ) (a d : α) (h : i ≠ j) :
    (l.set i a).getD j d = l.getD j d := by
  induction l generalizing i j with
  | nil => rfl
  | cons x t ih =>
    cases i with
    | zero => cases j with
      | zero => omega
      | succ j => rfl
    | succ i => cases j with
      | zero => rfl
      | succ j => exact ih i j (by omega)

theorem getD_set_self {α : Type*} (l : List α) (i : ℕ) (a d : α) (h : i < l.length) :
    (l.set i a).getD i d = a := by
  induction l generalizing i with
  | nil => simp at h
  | cons x t ih =>
    cases i with
    | zero => rfl
    | succ i => exact ih i (by simpa using h)

theorem getD_le_sum (l : List ℕ) (i : ℕ) : l.getD i 0 ≤ l.sum := by
  induction l generalizing i with
  | nil => simp [List.getD]
  | cons x t ih =>
    cases i with
    | zero => simp [List.getD]
    | succ i => calc t.getD i 0 ≤ t.sum := ih i
                _ ≤ (x :: t).sum := by simp

theorem sum_set_add (l : List ℕ) (i a : ℕ) (h : i < l.length) :
    (l.set i a).sum + l.getD i 0 = l.sum + a := by
  induction l generalizing i with
  | nil => simp at h
  | cons x t ih =>
    cases i with
    | zero => simp [List.getD]; omega
    | succ i =>
      have := ih i (by simpa using h)
      simp [List.getD] at this ⊢
      omega

theorem length_filter_cons {α : Type*} (p : α → Bool) (x : α) (t : List α) :
    ((x :: t).filter p).length = (if p x = true then 1 else 0) + (t.filter p).length := by
  rw [List.filter_cons]
  split <;> simp [Nat.add_comm]

theorem two_getD_le_sum (l : List ℕ) (i j : ℕ) (hne : i ≠ j) (hi : i < l.length) :
    l.getD i 0 + l.getD j 0 ≤ l.sum := by
  have h1 : (l.set i 0).sum + l.getD i 0 = l.sum + 0 := sum_set_add l i 0 hi
  have h2 : (l.set i 0).getD j 0 = l.getD j 0 := getD_set_ne l i j 0 0 hne
  have h3 : (l.set i 0).getD j 0 ≤ (l.set i 0).sum := getD_le_sum _ j
  omega

/-! ### C7 : quantizer boundary behavior -/

/-- C7: the quantizer `get_signal_level` maps inputs at or below `MIN_LEVEL`
to 0, inputs at or above `MAX_LEVEL` to `L - 1`, inputs strictly in between to
`floor((x - min) / (max - min) * (L - 1))`, and its result always lies in
`[0, L)`, for any configuration with `L >= 1` and `MIN_LEVEL < MAX_LEVEL`. -/
theorem C7_quantizer_boundaries (minLevel maxLevel x : ℚ) (numLevels : ℕ)
    (hL : 1 ≤ numLevels) (hlt : minLevel < maxLevel) :
    (x ≤ minLevel → get_signal_level minLevel maxLevel numLevels x = 0) ∧
    (maxLevel ≤ x → get_signal_level minLevel maxLevel numLevels x = (numLevels : ℤ) - 1) ∧
    (minLevel < x → x < maxLevel →
      get_signal_level minLevel maxLevel numLevels x =
        ⌊(x - minLevel) / (maxLevel - minLevel) * ((numLevels : ℚ) - 1)⌋) ∧
    0 ≤ get_signal_level minLevel maxLevel numLevels x ∧
    get_signal_level minLevel maxLevel numLevels x < (numLevels : ℤ) := by
  have hL' : (1 : ℚ) ≤ (numLevels : ℚ) := by exact_mod_cast hL
  have hcast : (((numLevels : ℤ) - 1 : ℤ) : ℚ) = (numLevels : ℚ) - 1 := by push_cast; ring
  have hmid : ∀ (hx1 : minLevel < x) (hx2 : x < maxLevel),
      get_signal_level minLevel maxLevel numLevels x =
        ⌊(x - minLevel) / (maxLevel - minLevel) * ((numLevels : ℚ) - 1)⌋ := by
    intro hx1 hx2
    have h1 : ¬ x ≤ minLevel := not_le.mpr hx1
    have h2 : ¬ maxLevel ≤ x := not_le.mpr hx2
    have hq : (0 : ℚ) ≤ (x - minLevel) / (maxLevel - minLevel) * ((numLevels : ℚ) - 1) := by
      apply mul_nonneg
      · apply div_nonneg <;> linarith
      · linarith
    simp only [get_signal_level, if_neg h1, if_neg h2, c_trunc, hcast, if_pos hq]
  refine ⟨fun hx => by simp [get_signal_level, hx], ?_, hmid, ?_⟩
  · intro hx
    have h1 : ¬ x ≤ minLevel := not_le.mpr (lt_of_lt_of_le hlt hx)
    simp [get_signal_level, h1, hx]
  · by_cases hx1 : x ≤ minLevel
    · simp only [get_signal_level, if_pos hx1]
      constructor
      · exact le_refl 0
      · exact_mod_cast hL
    · by_cases hx2 : maxLevel ≤ x
      · simp only [get_signal_level, if_neg hx1, if_pos hx2]
        constructor
        · omega
        · omega
      · push_neg at hx1 hx2
        rw [hmid hx1 hx2]
        have hden : (0 : ℚ) < maxLevel - minLevel := by linarith
        have hr1 : (x - minLevel) / (maxLevel - minLevel) < 1 := by
          rw [div_lt_one hden]; linarith
        have hr0 : (0 : ℚ) ≤ (x - minLevel) / (maxLevel - minLevel) := by
          apply div_nonneg <;> linarith
        constructor
        · exact Int.floor_nonneg.mpr (mul_nonneg hr0 (by linarith))
        · apply Int.floor_lt.mpr
          have : (x - minLevel) / (maxLevel - minLevel) * ((numLevels : ℚ) - 1) ≤
              1 * ((numLevels : ℚ) - 1) :=
            mul_le_mul_of_nonneg_right (le_of_lt hr1) (by linarith)
          push_cast
          linarith

/-- Witness for C7: the foot configuration `MIN_LEVEL = -1`, `MAX_LEVEL = 1`,
`NUM_LEVELS = 100` satisfies the hypotheses, instantiated at `x = 1/2`. -/
theorem C7_quantizer_boundaries_witness :
    (1 ≤ 100 ∧ (-1 : ℚ) < 1) ∧
    (((1 : ℚ)/2 ≤ -1 → get_signal_level (-1) 1 100 (1/2) = 0) ∧
     ((1 : ℚ) ≤ 1/2 → get_signal_level (-1) 1 100 (1/2) = (100 : ℤ) - 1) ∧
     ((-1 : ℚ) < 1/2 → (1 : ℚ)/2 < 1 →
       get_signal_level (-1) 1 100 (1/2) =
         ⌊((1 : ℚ)/2 - (-1)) / (1 - (-1)) * ((100 : ℚ) - 1)⌋) ∧
     0 ≤ get_signal_level (-1) 1 100 (1/2) ∧
     get_signal_level (-1) 1 100 (1/2) < (100 : ℤ)) :=
  ⟨⟨by norm_num, by norm_num⟩, C7_quantizer_boundaries (-1) 1 (1/2) 100 (by norm_num) (by norm_num)⟩

/-! ### C8 : bundle_multi on an empty input -/

/-- C8: counterexample — `bundle_multi` with zero input vectors is not treated
as an error; in binary mode every per-bit count 0 satisfies
`count >= 0 / 2`, so it returns the all-ones hypervector (here `D = 4`). -/
theorem C8_counterexample : bundle_multi 4 [] = [true, true, true, true] := by decide

/-- C8 (amended): `bundle_multi` performs no empty-input check; with zero
vectors it returns the all-ones vector in binary mode and the all-zero
vector in bipolar mode. -/
theorem C8_empty_bundle (D : ℕ) :
    bundle_multi D [] = List.replicate D true ∧
    bundle_multi_bipolar D [] = List.replicate D (0 : ℤ) := by
  constructor
  · show (List.range D).map (fun _ => true) = List.replicate D true
    simp [List.map_const']
  · rfl

/-! ### C10 : normalize divides only positive-count classes -/

/-- C10: `normalize` leaves the prototype of every class with count 0
untouched, and divides each prototype element (C integer division) by the
count exactly for the classes whose count is strictly positive, so the
divisor is never zero. -/
theorem C10_normalize_guard (mem : AssocMem) (i : ℕ)
    (hi : i < mem.class_vectors.length) :
    (mem.counts.getD i 0 = 0 →
      (normalize mem).class_vectors.getD i [] = mem.class_vectors.getD i []) ∧
    (0 < mem.counts.getD i 0 →
      (mem.counts.getD i 0 : ℤ) ≠ 0 ∧
      (normalize mem).class_vectors.getD i [] =
        (mem.class_vectors.getD i []).map
          (fun x => Int.tdiv x ((mem.counts.getD i 0 : ℕ) : ℤ))) := by
  have hget : (normalize mem).class_vectors.getD i [] =
      (if 0 < mem.counts.getD i 0 then
        (mem.class_vectors.getD i []).map
          (fun x => Int.tdiv x ((mem.counts.getD i 0 : ℕ) : ℤ))
      else mem.class_vectors.getD i []) := by
    unfold normalize
    exact getD_map_range _ _ i [] hi
  constructor
  · intro h0
    rw [hget, if_neg (by omega)]
  · intro hpos
    refine ⟨by exact_mod_cast Nat.pos_iff_ne_zero.mp hpos, ?_⟩
    rw [hget, if_pos hpos]

/-- Witness for C10: a one-class memory with prototype `[5]` and count 2. -/
theorem C10_normalize_guard_witness :
    0 < (AssocMem.mk [[5]] [2]).class_vectors.length ∧
    (((AssocMem.mk [[5]] [2]).counts.getD 0 0 = 0 →
      (normalize (AssocMem.mk [[5]] [2])).class_vectors.getD 0 [] =
        (AssocMem.mk [[5]] [2]).class_vectors.getD 0 []) ∧
     (0 < (AssocMem.mk [[5]] [2]).counts.getD 0 0 →
      ((AssocMem.mk [[5]] [2]).counts.getD 0 0 : ℤ) ≠ 0 ∧
      (normalize (AssocMem.mk [[5]] [2])).class_vectors.getD 0 [] =
        ((AssocMem.mk [[5]] [2]).class_vectors.getD 0 []).map
          (fun x => Int.tdiv x (((AssocMem.mk [[5]] [2]).counts.getD 0 0 : ℕ) : ℤ)))) :=
  ⟨by decide, C10_normalize_guard (AssocMem.mk [[5]] [2]) 0 (by decide)⟩

/-! ### C4 : bipolar add_to_assoc_mem -/

/-- C4: counterexample — a reachable state with a zero-norm prototype and a
positive count (e.g. after bundling `[1]` with `[-1]`): `similarity_check`
returns the error value `-2` and `add_to_assoc_mem` aborts the process
(modelled as `none`) instead of returning true or false as the claim
describes. -/
theorem C4_counterexample :
    add_to_assoc_mem (9/10) (AssocMem.mk [[0]] [2]) [1] 0 = none := by decide

/-- C4 (amended): for a valid class, `add_to_assoc_mem` adopts the sample and
sets the count to 1 when the count is 0; otherwise, provided neither the
prototype nor the sample has zero norm (else the call aborts), it bundles the
sample into the prototype and increments the count exactly when the cosine
similarity is below the threshold, returning true, and otherwise returns
false leaving the state unchanged — so the count changes iff it returns
true. -/
theorem C4_add_behavior (threshold : ℚ) (mem : AssocMem) (hv : List ℤ)
    (cls : ℕ) (hcls : cls < mem.class_vectors.length) :
    (mem.counts.getD cls 0 = 0 →
      add_to_assoc_mem threshold mem hv cls =
        some (⟨mem.class_vectors.set cls hv, mem.counts.set cls 1⟩, true)) ∧
    (0 < mem.counts.getD cls 0 →
      norm_sq (mem.class_vectors.getD cls []) ≠ 0 → norm_sq hv ≠ 0 →
      (cosine_lt (dot_product (mem.class_vectors.getD cls []) hv)
          (norm_sq (mem.class_vectors.getD cls [])) (norm_sq hv) threshold = true →
        add_to_assoc_mem threshold mem hv cls =
          some (⟨mem.class_vectors.set cls
                  (bundle (mem.class_vectors.getD cls []) hv),
                mem.counts.set cls (mem.counts.getD cls 0 + 1)⟩, true)) ∧
      (cosine_lt (dot_product (mem.class_vectors.getD cls []) hv)
          (norm_sq (mem.class_vectors.getD cls [])) (norm_sq hv) threshold = false →
        add_to_assoc_mem threshold mem hv cls = some (mem, false))) := by
  constructor
  · intro h0
    simp only [add_to_assoc_mem]
    rw [if_pos hcls, if_pos h0]
  · intro hpos hn1 hn2
    have h0 : ¬ mem.counts.getD cls 0 = 0 := by omega
    have hnorm : ¬ (norm_sq (mem.class_vectors.getD cls []) = 0 ∨ norm_sq hv = 0) := by
      push_neg; exact ⟨hn1, hn2⟩
    constructor
    · intro hlt
      simp only [add_to_assoc_mem]
      rw [if_pos hcls, if_neg h0, if_neg hnorm, if_pos hlt, if_pos hpos]
    · intro hge
      simp only [add_to_assoc_mem]
      rw [if_pos hcls, if_neg h0, if_neg hnorm,
        if_neg (by simp only [Bool.not_eq_true]; exact hge)]

/-- Witness for C4: a one-class memory with prototype `[1]`, count 1 and
sample `[1]`; the cosine similarity is 1, which is not below the threshold
`0.9`, so the sample is skipped. -/
theorem C4_add_behavior_witness :
    add_to_assoc_mem (9/10) (AssocMem.mk [[1]] [1]) [1] 0 =
      some (AssocMem.mk [[1]] [1], false) :=
  ((C4_add_behavior (9/10) (AssocMem.mk [[1]] [1]) [1] 0 (by decide)).2
    (by decide) (by decide) (by decide)).2 (by with_unfolding_all decide)

/-! ### C3 : classify returns the first argmax -/

/-- C3: counterexample — with a single prototype at maximal Hamming distance
from the query, the similarity is exactly `-1`, never strictly above the
initial `best_similarity = -1.0`, so `classify` returns `-1` instead of a
valid class index. -/
theorem C3_counterexample : classify 1 [[true]] [false] = -1 := by
  with_unfolding_all decide

/-- C3 (amended): whenever some class has similarity strictly above `-1`,
binary `classify` returns the smallest class index maximizing the similarity
(ties broken by lowest index), and that index is a valid class index; when
every prototype has similarity exactly `-1` it returns `-1` instead. -/
theorem C3_classify_argmax (D : ℕ) (class_vectors : List (List Bool))
    (sample_hv : List Bool)
    (hex : ∃ c, c < class_vectors.length ∧
      -1 < hamming_distance D (class_vectors.getD c []) sample_hv) :
    ∃ r : ℕ, classify D class_vectors sample_hv = (r : ℤ) ∧
      r < class_vectors.length ∧
      (∀ c < class_vectors.length,
        hamming_distance D (class_vectors.getD c []) sample_hv ≤
          hamming_distance D (class_vectors.getD r []) sample_hv) ∧
      (∀ c < r,
        hamming_distance D (class_vectors.getD c []) sample_hv <
          hamming_distance D (class_vectors.getD r []) sample_hv) := by
  have main : ∀ m : ℕ,
      (((List.range m).foldl
          (fun best i =>
            if best.2 < hamming_distance D (class_vectors.getD i []) sample_hv then
              ((i : ℤ), hamming_distance D (class_vectors.getD i []) sample_hv)
            else best)
          ((-1 : ℤ), (-1 : ℚ))) = ((-1 : ℤ), (-1 : ℚ)) ∧
        (∀ c < m, hamming_distance D (class_vectors.getD c []) sample_hv ≤ -1)) ∨
      (∃ r : ℕ,
        ((List.range m).foldl
          (fun best i =>
            if best.2 < hamming_distance D (class_vectors.getD i []) sample_hv then
              ((i : ℤ), hamming_distance D (class_vectors.getD i []) sample_hv)
            else best)
          ((-1 : ℤ), (-1 : ℚ)))
          = ((r : ℤ), hamming_distance D (class_vectors.getD r []) sample_hv) ∧
        r < m ∧
        -1 < hamming_distance D (class_vectors.getD r []) sample_hv ∧
        (∀ c < m, hamming_distance D (class_vectors.getD c []) sample_hv ≤
          hamming_distance D (class_vectors.getD r []) sample_hv) ∧
        (∀ c < r, hamming_distance D (class_vectors.getD c []) sample_hv <
          hamming_distance D (class_vectors.getD r []) sample_hv)) := by
    intro m
    induction m with
    | zero => exact Or.inl ⟨rfl, by omega⟩
    | succ m ih =>
      rw [List.range_succ, List.foldl_append, List.foldl_cons, List.foldl_nil]
      rcases ih with ⟨heq, hle⟩ | ⟨r, heq, hrm, hgt, hmax, hfirst⟩
      · rw [heq]
        by_cases h : (-1 : ℚ) < hamming_distance D (class_vectors.getD m []) sample_hv
        · refine Or.inr ⟨m, by rw [if_pos h], by omega, h, ?_, ?_⟩
          · intro c hc
            rcases Nat.lt_succ_iff_lt_or_eq.mp hc with hc' | hc'
            · exact le_trans (hle c hc') (le_of_lt h)
            · rw [hc']
          · intro c hc
            exact lt_of_le_of_lt (hle c hc) h
        · refine Or.inl ⟨by rw [if_neg h], ?_⟩
          intro c hc
          rcases Nat.lt_succ_iff_lt_or_eq.mp hc with hc' | hc'
          · exact hle c hc'
          · rw [hc']; exact not_lt.mp h
      · rw [heq]
        by_cases h : hamming_distance D (class_vectors.getD r []) sample_hv <
            hamming_distance D (class_vectors.getD m []) sample_hv
        · refine Or.inr ⟨m, by rw [if_pos h], by omega, lt_trans hgt h, ?_, ?_⟩
          · intro c hc
            rcases Nat.lt_succ_iff_lt_or_eq.mp hc with hc' | hc'
            · exact le_trans (hmax c hc') (le_of_lt h)
            · rw [hc']
          · intro c hc
            exact lt_of_le_of_lt (hmax c hc) h
        · refine Or.inr ⟨r, by rw [if_neg h], by omega, hgt, ?_, hfirst⟩
          intro c hc
          rcases Nat.lt_succ_iff_lt_or_eq.mp hc with hc' | hc'
          · exact hmax c hc'
          · rw [hc']; exact not_lt.mp h
  rcases main class_vectors.length with ⟨_, hle⟩ | ⟨r, heq, hrm, _, hmax, hfirst⟩
  · obtain ⟨c, hc, hgt⟩ := hex
    exact absurd (hle c hc) (not_le.mpr hgt)
  · refine ⟨r, ?_, hrm, hmax, hfirst⟩
    show (_ : ℤ × ℚ).1 = _
    rw [heq]

/-- Witness for C3: two prototypes, the first identical to the query
(similarity 1), so class 0 is the argmax. -/
theorem C3_classify_argmax_witness :
    ∃ r : ℕ, classify 1 [[false], [true]] [false] = (r : ℤ) ∧
      r < ([[false], [true]] : List (List Bool)).length ∧
      (∀ c < ([[false], [true]] : List (List Bool)).length,
        hamming_distance 1 (([[false], [true]] : List (List Bool)).getD c []) [false] ≤
          hamming_distance 1 (([[false], [true]] : List (List Bool)).getD r []) [false]) ∧
      (∀ c < r,
        hamming_distance 1 (([[false], [true]] : List (List Bool)).getD c []) [false] <
          hamming_distance 1 (([[false], [true]] : List (List Bool)).getD r []) [false]) :=
  C3_classify_argmax 1 [[false], [true]] [false]
    ⟨0, by decide, by with_unfolding_all decide⟩

/-! ### C9 : transfer mutation preserves the gene sum -/

theorem rng_range_lt (state max : ℕ) (h : 0 < max) : (rng_range state max).1 < max := by
  unfold rng_range
  rw [if_neg (by omega)]
  exact Nat.mod_lt _ h

theorem find_donor_some (genes : List ℕ) :
    ∀ (tries state d s2 : ℕ), find_donor genes state tries = (some d, s2) →
      d < genes.length ∧ 0 < genes.getD d 0 := by
  intro tries
  induction tries with
  | zero =>
    intro state d s2 h
    exact absurd h (by simp [find_donor])
  | succ t ih =>
    intro state d s2 h
    unfold find_donor at h
    by_cases hpos : 0 < genes.getD (rng_range state genes.length).1 0
    · rw [if_pos hpos] at h
      have h1 : some (rng_range state genes.length).1 = some d :=
        congrArg Prod.fst h
      obtain rfl := Option.some.inj h1
      refine ⟨?_, hpos⟩
      rcases Nat.eq_zero_or_pos genes.length with hlen | hlen
      · exfalso
        have hnil : genes = [] := List.length_eq_zero.mp hlen
        rw [hnil] at hpos
        simp [rng_range, List.getD] at hpos
      · exact rng_range_lt state genes.length hlen
    · rw [if_neg hpos] at h
      exact ih _ d s2 h

/-- The donor/receiver transfer at the heart of `mutate_step` keeps the gene
sum unchanged as long as the whole sum fits into a `uint16_t`. -/
theorem transfer_sum (genes : List ℕ) (donor receiver : ℕ)
    (hd : donor < genes.length) (hr : receiver < genes.length)
    (hpos : 0 < genes.getD donor 0) (hsum : genes.sum ≤ 65535) :
    ((genes.set donor (genes.getD donor 0 - 1)).set receiver
        (((genes.set donor (genes.getD donor 0 - 1)).getD receiver 0 + 1) % 65536)).sum
      = genes.sum := by
  have hlen1 : (genes.set donor (genes.getD donor 0 - 1)).length = genes.length :=
    List.length_set ..
  have hsum1 : (genes.set donor (genes.getD donor 0 - 1)).sum + genes.getD donor 0 =
      genes.sum + (genes.getD donor 0 - 1) := sum_set_add genes donor _ hd
  by_cases hne : receiver = donor
  · subst hne
    have hget : (genes.set receiver (genes.getD receiver 0 - 1)).getD receiver 0 =
        genes.getD receiver 0 - 1 := getD_set_self genes receiver _ 0 hd
    have hle : genes.getD receiver 0 ≤ genes.sum := getD_le_sum genes receiver
    have hmod : (genes.getD receiver 0 - 1 + 1) % 65536 = genes.getD receiver 0 := by
      rw [Nat.sub_add_cancel hpos]
      exact Nat.mod_eq_of_lt (by omega)
    have hsum2 := sum_set_add (genes.set receiver (genes.getD receiver 0 - 1)) receiver
      ((genes.set receiver (genes.getD receiver 0 - 1)).getD receiver 0 + 1 % 65536)
      (by omega)
    rw [hget, hmod]
    have hsum3 := sum_set_add (genes.set receiver (genes.getD receiver 0 - 1)) receiver
      (genes.getD receiver 0) (by omega)
    rw [hget] at hsum3
    omega
  · have hget : (genes.set donor (genes.getD donor 0 - 1)).getD receiver 0 =
        genes.getD receiver 0 := getD_set_ne genes donor receiver _ 0 (fun h => hne h.symm)
    have hle : genes.getD donor 0 + genes.getD receiver 0 ≤ genes.sum :=
      two_getD_le_sum genes donor receiver (fun h => hne h.symm) hd
    have hmod : (genes.getD receiver 0 + 1) % 65536 = genes.getD receiver 0 + 1 :=
      Nat.mod_eq_of_lt (by omega)
    have hsum2 := sum_set_add (genes.set donor (genes.getD donor 0 - 1)) receiver
      (genes.getD receiver 0 + 1) (by omega)
    rw [hget] at hsum2
    rw [hget, hmod]
    omega

theorem mutate_step_sum (rate : ℚ) (genes : List ℕ) (state : ℕ)
    (hsum : genes.sum ≤ 65535) :
    (mutate_step rate genes state).1.sum = genes.sum := by
  unfold mutate_step
  by_cases htrig : (rng_uniform_lt state rate).1 = true
  · rw [if_pos htrig]
    rcases hfd : find_donor genes (rng_uniform_lt state rate).2 (genes.length * 2)
      with ⟨od, s2⟩
    cases od with
    | none => simp only [hfd]
    | some donor =>
      obtain ⟨hdlt, hdpos⟩ := find_donor_some genes _ _ _ _ hfd
      have hlen : 0 < genes.length := by omega
      simp only [hfd]
      apply transfer_sum genes donor _ hdlt ?_ hdpos hsum
      by_cases hcol : (rng_range s2 genes.length).1 = donor ∧ 1 < genes.length
      · rw [if_pos hcol]
        exact Nat.mod_lt _ hlen
      · rw [if_neg hcol]
        exact rng_range_lt _ _ hlen
  · rw [if_neg htrig]

/-- C9 counterexample: genes are `uint16_t`, so with genome `[65535, 1]`
(mutation rate 4/5, RNG state 1) a triggered transfer increments the gene at
65535, which wraps to 0; the gene sum drops from 65536 to 0. -/
theorem C9_counterexample :
    (mutate_individual (4/5) [65535, 1] 1).1.sum ≠ ([65535, 1] : List ℕ).sum := by
  with_unfolding_all decide

/-- C9 (amended): one application of the GA transfer mutation preserves the
gene sum for every genome whose gene sum fits in a `uint16_t`
(`sum <= 65535`), every mutation rate and every RNG state; a triggered step
that finds no positive donor leaves the genome unchanged.  (For larger sums
the `uint16_t` increment can wrap and the sum is only preserved modulo
`2^16`.) -/
theorem C9_mutation_preserves_sum (mutation_rate : ℚ) (genes : List ℕ)
    (state : ℕ) (hsum : genes.sum ≤ 65535) :
    (mutate_individual mutation_rate genes state).1.sum = genes.sum := by
  unfold mutate_individual
  by_cases hlen : genes.length ≤ 1
  · rw [if_pos hlen]
  · rw [if_neg hlen]
    have main : ∀ (l : List ℕ) (p : List ℕ × ℕ), p.1.sum = genes.sum →
        ((l.foldl (fun acc _ => mutate_step mutation_rate acc.1 acc.2) p).1).sum =
          genes.sum := by
      intro l
      induction l with
      | nil => intro p hp; exact hp
      | cons x t ih =>
        intro p hp
        rw [List.foldl_cons]
        exact ih _ (by rw [mutate_step_sum mutation_rate p.1 p.2 (by omega)]; exact hp)
    exact main (List.range genes.length) (genes, state) rfl

/-- Witness for C9: genome `[1, 2]` with sum 3, rate 4/5, state 1. -/
theorem C9_mutation_preserves_sum_witness :
    ([1, 2] : List ℕ).sum ≤ 65535 ∧
    (mutate_individual (4/5) [1, 2] 1).1.sum = ([1, 2] : List ℕ).sum :=
  ⟨by decide, C9_mutation_preserves_sum (4/5) [1, 2] 1 (by decide)⟩

/-! ### C5 / C6 : evaluator counting -/

/-- A run of the direct-evaluator loop over any list of window starts whose
predictions are valid: it succeeds, and the three counters accumulate exactly
the windows matching the respective conditions. -/
theorem eval_direct_run (labels : List ℤ) (n : ℕ) (predict : ℕ → ℤ) :
    ∀ (ws : List ℕ) (acc : EvalResult),
      (∀ j ∈ ws, predict j ≠ -1) →
      ∃ r, ws.foldlM (eval_direct_step labels n predict) acc = some r ∧
        r.correct = acc.correct +
          (ws.filter (fun j => predict j = mode (window_of labels n j))).length ∧
        r.transition_error = acc.transition_error +
          (ws.filter (fun j => predict j ≠ mode (window_of labels n j) ∧
            labels.getD j 0 ≠ labels.getD (j + n - 1) 0)).length ∧
        r.not_correct = acc.not_correct +
          (ws.filter (fun j => predict j ≠ mode (window_of labels n j) ∧
            labels.getD j 0 = labels.getD (j + n - 1) 0)).length := by
  intro ws
  induction ws with
  | nil =>
    intro acc _
    exact ⟨acc, by simp, by simp, by simp, by simp⟩
  | cons j t ih =>
    intro acc h
    have hj : predict j ≠ -1 := h j (List.mem_cons_self ..)
    obtain ⟨r, hr, h1, h2, h3⟩ :=
      ih { acc with
        confusion_matrix :=
          bump_confusion acc.confusion_matrix (mode (window_of labels n j)) (predict j)
        correct := if predict j = mode (window_of labels n j) then acc.correct + 1
          else acc.correct
        transition_error :=
          if predict j ≠ mode (window_of labels n j) ∧
              labels.getD j 0 ≠ labels.getD (j + n - 1) 0 then
            acc.transition_error + 1
          else acc.transition_error
        not_correct :=
          if predict j ≠ mode (window_of labels n j) ∧
              labels.getD j 0 = labels.getD (j + n - 1) 0 then
            acc.not_correct + 1
          else acc.not_correct }
      (fun x hx => h x (List.mem_cons_of_mem _ hx))
    refine ⟨r, ?_, ?_, ?_, ?_⟩
    · rw [List.foldlM_cons]
      simp only [eval_direct_step, if_neg hj, Option.bind_eq_bind, Option.some_bind]
      exact hr
    · rw [h1, length_filter_cons]
      dsimp only
      by_cases hc : predict j = mode (window_of labels n j)
      · rw [if_pos hc, if_pos (decide_eq_true hc)]
        omega
      · rw [if_neg hc, if_neg (fun hx => hc (of_decide_eq_true hx))]
        omega
    · rw [h2, length_filter_cons]
      dsimp only
      by_cases hc : predict j ≠ mode (window_of labels n j) ∧
          labels.getD j 0 ≠ labels.getD (j + n - 1) 0
      · rw [if_pos hc, if_pos (decide_eq_true hc)]
        omega
      · rw [if_neg hc, if_neg (fun hx => hc (of_decide_eq_true hx))]
        omega
    · rw [h3, length_filter_cons]
      dsimp only
      by_cases hc : predict j ≠ mode (window_of labels n j) ∧
          labels.getD j 0 = labels.getD (j + n - 1) 0
      · rw [if_pos hc, if_pos (decide_eq_true hc)]
        omega
      · rw [if_neg hc, if_neg (fun hx => hc (of_decide_eq_true hx))]
        omega

/-- C5: in the direct evaluator, a window counts as `correct` exactly when
the prediction equals the window's plurality label, as `transition_error`
exactly when it differs and the window's first and last labels differ, and as
`not_correct` exactly when it differs and they agree; in particular, the E5
scenario (n = 3, labels [0,0,1,1,1,1], model predicting 1 on both windows)
yields transition_error = 1, correct = 1 and not_correct = 0. -/
theorem C5_transition_accounting :
    (∀ (n : ℕ) (labels : List ℤ) (predict : ℕ → ℤ),
      (∀ j ∈ window_starts labels.length n, predict j ≠ -1) →
      ∃ r, evaluate_model_timeseries_direct n labels predict = some r ∧
        r.correct = ((window_starts labels.length n).filter
          (fun j => predict j = mode (window_of labels n j))).length ∧
        r.transition_error = ((window_starts labels.length n).filter
          (fun j => predict j ≠ mode (window_of labels n j) ∧
            labels.getD j 0 ≠ labels.getD (j + n - 1) 0)).length ∧
        r.not_correct = ((window_starts labels.length n).filter
          (fun j => predict j ≠ mode (window_of labels n j) ∧
            labels.getD j 0 = labels.getD (j + n - 1) 0)).length) ∧
    (∃ r, evaluate_model_timeseries_direct 3 [0, 0, 1, 1, 1, 1] (fun _ => 1) = some r ∧
      r.transition_error = 1 ∧ r.correct = 1 ∧ r.not_correct = 0) := by
  have hmain : ∀ (n : ℕ) (labels : List ℤ) (predict : ℕ → ℤ),
      (∀ j ∈ window_starts labels.length n, predict j ≠ -1) →
      ∃ r, evaluate_model_timeseries_direct n labels predict = some r ∧
        r.correct = ((window_starts labels.length n).filter
          (fun j => predict j = mode (window_of labels n j))).length ∧
        r.transition_error = ((window_starts labels.length n).filter
          (fun j => predict j ≠ mode (window_of labels n j) ∧
            labels.getD j 0 ≠ labels.getD (j + n - 1) 0)).length ∧
        r.not_correct = ((window_starts labels.length n).filter
          (fun j => predict j ≠ mode (window_of labels n j) ∧
            labels.getD j 0 = labels.getD (j + n - 1) 0)).length := by
    intro n labels predict h
    obtain ⟨r, hr, h1, h2, h3⟩ := eval_direct_run labels n predict _ initEvalResult h
    refine ⟨{ r with total := r.correct + r.not_correct + r.transition_error }, ?_,
      by simpa [initEvalResult] using h1, by simpa [initEvalResult] using h2,
      by simpa [initEvalResult] using h3⟩
    unfold evaluate_model_timeseries_direct
    rw [hr, Option.map_some']
  refine ⟨hmain, ?_⟩
  obtain ⟨r, hr, h1, h2, h3⟩ := hmain 3 [0, 0, 1, 1, 1, 1] (fun _ => 1) (by decide)
  exact ⟨r, hr, by rw [h2]; decide, by rw [h1]; decide, by rw [h3]; decide⟩

/-- Witness for C5: a two-sample run with n = 1 and a constant prediction. -/
theorem C5_transition_accounting_witness :
    (∀ j ∈ window_starts ([0, 1] : List ℤ).length 1, (fun _ => (0 : ℤ)) j ≠ -1) ∧
    (∃ r, evaluate_model_timeseries_direct 1 [0, 1] (fun _ => (0 : ℤ)) = some r ∧
      r.correct = ((window_starts ([0, 1] : List ℤ).length 1).filter
        (fun j => (fun _ => (0 : ℤ)) j = mode (window_of [0, 1] 1 j))).length ∧
      r.transition_error = ((window_starts ([0, 1] : List ℤ).length 1).filter
        (fun j => (fun _ => (0 : ℤ)) j ≠ mode (window_of [0, 1] 1 j) ∧
          ([0, 1] : List ℤ).getD j 0 ≠ ([0, 1] : List ℤ).getD (j + 1 - 1) 0)).length ∧
      r.not_correct = ((window_starts ([0, 1] : List ℤ).length 1).filter
        (fun j => (fun _ => (0 : ℤ)) j ≠ mode (window_of [0, 1] 1 j) ∧
          ([0, 1] : List ℤ).getD j 0 = ([0, 1] : List ℤ).getD (j + 1 - 1) 0)).length) :=
  ⟨by decide, C5_transition_accounting.1 1 [0, 1] (fun _ => (0 : ℤ)) (by decide)⟩

/-- The running best of the `mode` fold stays inside the array (or keeps its
zero-count start while one is still pending). -/
theorem mode_fold_mem (array : List ℤ) :
    ∀ (l : List ℤ) (acc : ℤ × ℕ),
      (∀ y ∈ l, y ∈ array) →
      (acc.1 ∈ array ∨ (l ≠ [] ∧ acc.2 = 0)) →
      ((l.foldl
        (fun acc x =>
          if acc.2 < array.count x then (x, array.count x)
          else if array.count x = acc.2 ∧ x < acc.1 then (x, acc.2) else acc)
        acc)).1 ∈ array := by
  intro l
  induction l with
  | nil =>
    intro acc _ hacc
    rcases hacc with h | ⟨h, _⟩
    · exact h
    · exact absurd rfl h
  | cons y t ih =>
    intro acc hl hacc
    rw [List.foldl_cons]
    have hy : y ∈ array := hl y (List.mem_cons_self ..)
    apply ih _ (fun z hz => hl z (List.mem_cons_of_mem _ hz))
    by_cases h1 : acc.2 < array.count y
    · rw [if_pos h1]
      exact Or.inl hy
    · rw [if_neg h1]
      by_cases h2 : array.count y = acc.2 ∧ y < acc.1
      · rw [if_pos h2]
        exact Or.inl hy
      · rw [if_neg h2]
        rcases hacc with h | ⟨_, h0⟩
        · exact Or.inl h
        · exfalso
          have : 0 < array.count y := List.count_pos_iff.mpr hy
          omega

/-- The `mode` of a nonempty array is one of its elements. -/
theorem mode_mem (array : List ℤ) (h : array ≠ []) : mode array ∈ array :=
  mode_fold_mem array array ((0 : ℤ), (0 : ℕ)) (fun _ hy => hy) (Or.inr ⟨h, rfl⟩)

/-- Incrementing one in-range cell of the confusion matrix raises the sum of
its `K × K` window by one. -/
theorem confusion_sum_bump (K : ℕ) (confusion : ℤ → ℤ → ℕ) (a p : ℤ)
    (ha0 : 0 ≤ a) (haK : a < K) (hp0 : 0 ≤ p) (hpK : p < K) :
    confusion_sum K (bump_confusion confusion a p) = confusion_sum K confusion + 1 := by
  unfold confusion_sum bump_confusion
  have hsplit : ∀ i j : ℕ,
      (if (i : ℤ) = a ∧ (j : ℤ) = p then confusion i j + 1 else confusion i j) =
        confusion (i : ℤ) (j : ℤ) + (if i = a.toNat ∧ j = p.toNat then 1 else 0) := by
    intro i j
    by_cases hc : (i : ℤ) = a ∧ (j : ℤ) = p
    · rw [if_pos hc, if_pos (by omega)]
    · rw [if_neg hc, if_neg (by omega), Nat.add_zero]
  simp_rw [hsplit, Finset.sum_add_distrib]
  have hdelta : (∑ i ∈ Finset.range K, ∑ j ∈ Finset.range K,
      (if i = a.toNat ∧ j = p.toNat then 1 else 0)) = 1 := by
    have hinner : ∀ i ∈ Finset.range K,
        (∑ j ∈ Finset.range K, (if i = a.toNat ∧ j = p.toNat then 1 else 0)) =
          (if i = a.toNat then 1 else 0) := by
      intro i _
      by_cases hi : i = a.toNat
      · simp only [hi, true_and]
        rw [Finset.sum_ite_eq' (Finset.range K) p.toNat (fun _ => (1 : ℕ))]
        rw [if_pos (Finset.mem_range.mpr (by omega))]
        simp
      · simp [hi]
    rw [Finset.sum_congr rfl hinner,
      Finset.sum_ite_eq' (Finset.range K) a.toNat (fun _ => (1 : ℕ))]
    rw [if_pos (Finset.mem_range.mpr (by omega))]
  rw [hdelta]

/-- Steps of the direct evaluation loop raise the confusion-matrix sum and
the sum of the three counters in lockstep. -/
theorem eval_direct_conf (labels : List ℤ) (n : ℕ) (predict : ℕ → ℤ) (K : ℕ) :
    ∀ (ws : List ℕ) (acc : EvalResult),
      (∀ j ∈ ws, (0 ≤ mode (window_of labels n j) ∧ mode (window_of labels n j) < K) ∧
        (0 ≤ predict j ∧ predict j < K)) →
      ∀ r, ws.foldlM (eval_direct_step labels n predict) acc = some r →
        confusion_sum K r.confusion_matrix +
            (acc.correct + acc.not_correct + acc.transition_error) =
          confusion_sum K acc.confusion_matrix +
            (r.correct + r.not_correct + r.transition_error) := by
  intro ws
  induction ws with
  | nil =>
    intro acc _ r hr
    rw [List.foldlM_nil] at hr
    obtain rfl := Option.some.inj hr
    ring
  | cons j t ih =>
    intro acc h r hr
    obtain ⟨⟨hm0, hmK⟩, hp0, hpK⟩ := h j (List.mem_cons_self ..)
    have hj : predict j ≠ -1 := by omega
    rw [List.foldlM_cons] at hr
    simp only [eval_direct_step, if_neg hj, Option.bind_eq_bind, Option.some_bind] at hr
    have := ih _ (fun x hx => h x (List.mem_cons_of_mem _ hx)) r hr
    dsimp only at this
    rw [confusion_sum_bump K acc.confusion_matrix _ _ hm0 hmK hp0 hpK] at this
    by_cases hc : predict j = mode (window_of labels n j)
    · rw [if_pos hc, if_neg (by simp [hc]), if_neg (by simp [hc])] at this
      omega
    · by_cases hlab : labels.getD j 0 = labels.getD (j + n - 1) 0
      · rw [if_neg hc, if_pos ⟨hc, hlab⟩, if_neg (fun hx => hx.2 hlab)] at this
        omega
      · rw [if_neg hc, if_neg (fun hx => hlab hx.2), if_pos ⟨hc, hlab⟩] at this
        omega

/-- A run of the per-sample evaluation loop over in-range labels and
predictions succeeds and raises the confusion-matrix sum and
`correct + not_correct` in lockstep. -/
theorem eval_general_run (labels : List ℤ) (predict : ℕ → ℤ) (K : ℕ) :
    ∀ (idxs : List ℕ) (acc : EvalResult),
      (∀ j ∈ idxs, (0 ≤ labels.getD j 0 ∧ labels.getD j 0 < K) ∧
        (0 ≤ predict j ∧ predict j < K)) →
      ∃ r, idxs.foldlM (eval_general_step labels predict) acc = some r ∧
        confusion_sum K r.confusion_matrix + (acc.correct + acc.not_correct) =
          confusion_sum K acc.confusion_matrix + (r.correct + r.not_correct) := by
  intro idxs
  induction idxs with
  | nil =>
    intro acc _
    exact ⟨acc, by rw [List.foldlM_nil]; rfl, by ring⟩
  | cons j t ih =>
    intro acc h
    obtain ⟨⟨hl0, hlK⟩, hp0, hpK⟩ := h j (List.mem_cons_self ..)
    have hj : predict j ≠ -1 := by omega
    obtain ⟨r, hr, hsum⟩ :=
      ih { acc with
        confusion_matrix :=
          bump_confusion acc.confusion_matrix (labels.getD j 0) (predict j)
        correct := if predict j = labels.getD j 0 then acc.correct + 1 else acc.correct
        not_correct :=
          if predict j ≠ labels.getD j 0 then acc.not_correct + 1 else acc.not_correct }
      (fun x hx => h x (List.mem_cons_of_mem _ hx))
    refine ⟨r, ?_, ?_⟩
    · rw [List.foldlM_cons]
      simp only [eval_general_step, if_neg hj, Option.bind_eq_bind, Option.some_bind]
      exact hr
    · dsimp only at hsum
      rw [confusion_sum_bump K acc.confusion_matrix _ _ hl0 hlK hp0 hpK] at hsum
      by_cases hc : predict j = labels.getD j 0
      · rw [if_pos hc, if_neg (by simp [hc])] at hsum
        omega
      · rw [if_neg hc, if_pos hc] at hsum
        omega

/-- C6: when all true labels and all predictions lie in `[0, K)`, the direct
n-gram evaluator's `K × K` confusion matrix sums to
`correct + not_correct + transition_error`, and the general per-sample
evaluator's confusion matrix sums to `correct + not_correct`, which equals
its reported `total`. -/
theorem C6_confusion_matrix_sum :
    (∀ (n K : ℕ) (labels : List ℤ) (predict : ℕ → ℤ),
      1 ≤ n →
      (∀ l ∈ labels, 0 ≤ l ∧ l < K) →
      (∀ j ∈ window_starts labels.length n, 0 ≤ predict j ∧ predict j < K) →
      ∃ r, evaluate_model_timeseries_direct n labels predict = some r ∧
        confusion_sum K r.confusion_matrix =
          r.correct + r.not_correct + r.transition_error) ∧
    (∀ (K : ℕ) (labels : List ℤ) (predict : ℕ → ℤ),
      (∀ l ∈ labels, 0 ≤ l ∧ l < K) →
      (∀ j < labels.length, 0 ≤ predict j ∧ predict j < K) →
      ∃ r, evaluate_model_general_direct labels predict = some r ∧
        confusion_sum K r.confusion_matrix = r.correct + r.not_correct ∧
        confusion_sum K r.confusion_matrix = r.total) := by
  constructor
  · intro n K labels predict hn hlab hpred
    have hbounds : ∀ j ∈ window_starts labels.length n,
        (0 ≤ mode (window_of labels n j) ∧ mode (window_of labels n j) < K) ∧
        (0 ≤ predict j ∧ predict j < K) := by
      intro j hj
      refine ⟨?_, hpred j hj⟩
      have hji : j + n ≤ labels.length := by
        have := List.mem_filter.mp hj
        have h2 := of_decide_eq_true this.2
        exact h2.1
      have hne : window_of labels n j ≠ [] := by
        unfold window_of
        intro hnil
        have : ((labels.drop j).take n).length = 0 := by rw [hnil]; rfl
        rw [List.length_take, List.length_drop] at this
        omega
      have hmem : mode (window_of labels n j) ∈ labels := by
        have h1 := mode_mem _ hne
        unfold window_of at h1
        exact List.mem_of_mem_drop (List.mem_of_mem_take h1)
      exact hlab _ hmem
    have hvalid : ∀ j ∈ window_starts labels.length n, predict j ≠ -1 := by
      intro j hj
      have := (hpred j hj).1
      omega
    obtain ⟨r, hr, _, _, _⟩ :=
      eval_direct_run labels n predict (window_starts labels.length n) initEvalResult hvalid
    have hconf := eval_direct_conf labels n predict K (window_starts labels.length n)
      initEvalResult hbounds r hr
    have hinit : confusion_sum K initEvalResult.confusion_matrix = 0 := by
      simp [confusion_sum, initEvalResult]
    refine ⟨{ r with total := r.correct + r.not_correct + r.transition_error }, ?_, ?_⟩
    · unfold evaluate_model_timeseries_direct
      rw [hr, Option.map_some']
    · have hzero : confusion_sum K (fun _ _ => 0) = 0 := by simp [confusion_sum]
      simp only [initEvalResult] at hconf
      rw [hzero] at hconf
      dsimp only
      omega
  · intro K labels predict hlab hpred
    have hbounds : ∀ j ∈ List.range labels.length,
        (0 ≤ labels.getD j 0 ∧ labels.getD j 0 < K) ∧
        (0 ≤ predict j ∧ predict j < K) := by
      intro j hj
      have hjlt : j < labels.length := List.mem_range.mp hj
      refine ⟨?_, hpred j hjlt⟩
      have : labels.getD j 0 ∈ labels := by
        rw [List.getD_eq_getElem _ _ hjlt]
        exact List.getElem_mem ..
      exact hlab _ this
    obtain ⟨r, hr, hsum⟩ :=
      eval_general_run labels predict K (List.range labels.length) initEvalResult hbounds
    have hinit : confusion_sum K initEvalResult.confusion_matrix = 0 := by
      simp [confusion_sum, initEvalResult]
    refine ⟨{ r with total := r.correct + r.not_correct }, ?_, ?_, ?_⟩
    · unfold evaluate_model_general_direct
      rw [hr, Option.map_some']
    · have hzero : confusion_sum K (fun _ _ => 0) = 0 := by simp [confusion_sum]
      simp only [initEvalResult] at hsum
      rw [hzero] at hsum
      dsimp only
      omega
    · have hzero : confusion_sum K (fun _ _ => 0) = 0 := by simp [confusion_sum]
      simp only [initEvalResult] at hsum
      rw [hzero] at hsum
      dsimp only
      omega

/-- Witness for C6: one class, two samples, constant correct prediction. -/
theorem C6_confusion_matrix_sum_witness :
    (1 ≤ 1 ∧ (∀ l ∈ ([0, 0] : List ℤ), 0 ≤ l ∧ l < 1) ∧
      (∀ j ∈ window_starts ([0, 0] : List ℤ).length 1,
        0 ≤ (fun _ => (0 : ℤ)) j ∧ (fun _ => (0 : ℤ)) j < 1)) ∧
    (∃ r, evaluate_model_timeseries_direct 1 [0, 0] (fun _ => (0 : ℤ)) = some r ∧
      confusion_sum 1 r.confusion_matrix =
        r.correct + r.not_correct + r.transition_error) :=
  ⟨⟨by norm_num, by decide, by decide⟩,
    C6_confusion_matrix_sum.1 1 1 [0, 0] (fun _ => (0 : ℤ)) (by norm_num)
      (by decide) (by decide)⟩

/-! ### C2 : n-gram encoding closed form -/

theorem foldl_set_length {α : Type*} (f : ℕ → ℕ) (g : ℕ → α) :
    ∀ (l : List ℕ) (r : List α),
      (l.foldl (fun result i => result.set (f i) (g i)) r).length = r.length := by
  intro l
  induction l with
  | nil => intro r; rfl
  | cons x t ih => intro r; rw [List.foldl_cons, ih, List.length_set]

theorem permute_length (vector : List Bool) (offset : ℤ) :
    (permute vector offset).length = vector.length := by
  unfold permute
  split
  · rw [foldl_set_length (fun i => (i + offset.toNat) % vector.length)
      (fun i => vector.getD i false), List.length_replicate]
  · simp

theorem rot_cancel (D o a : ℕ) (hD : 0 < D) (ha : a < D) :
    ((a + o) % D + (D - o % D)) % D = a := by
  have h1 := Nat.div_add_mod o D
  have h2 : o % D < D := Nat.mod_lt o hD
  rw [Nat.mod_add_mod]
  have h3 : a + o + (D - o % D) = a + (D * (o / D) + D) := by omega
  rw [h3, show D * (o / D) + D = D * (o / D + 1) by ring,
    Nat.add_mul_mod_self_left, Nat.mod_eq_of_lt ha]

theorem rot_uncancel (D o a : ℕ) (hD : 0 < D) (ha : a < D) :
    ((a + (D - o % D)) % D + o) % D = a := by
  have h1 := Nat.div_add_mod o D
  have h2 : o % D < D := Nat.mod_lt o hD
  rw [Nat.mod_add_mod]
  have h3 : a + (D - o % D) + o = a + (D * (o / D) + D) := by omega
  rw [h3, show D * (o / D) + D = D * (o / D + 1) by ring,
    Nat.add_mul_mod_self_left, Nat.mod_eq_of_lt ha]

theorem permute_write_getD (vector : List Bool) (o : ℕ) (ho : 0 < o) :
    ∀ (m : ℕ), m ≤ vector.length →
      ∀ (r0 : List Bool), r0.length = vector.length →
      ∀ (j : ℕ) (hj : j < vector.length),
      ((List.range m).foldl
          (fun result i => result.set ((i + o) % vector.length) (vector.getD i false))
          r0).getD j false
        = if (j + (vector.length - o % vector.length)) % vector.length < m then
            vector.getD ((j + (vector.length - o % vector.length)) % vector.length) false
          else r0.getD j false := by
  intro m
  induction m with
  | zero =>
    intro _ r0 _ j _
    rw [if_neg (by omega)]
    rfl
  | succ m ih =>
    intro hm r0 hr j hj
    have hD : 0 < vector.length := by omega
    have hmD : m < vector.length := by omega
    rw [List.range_succ, List.foldl_append, List.foldl_cons, List.foldl_nil]
    have hWlen : ((List.range m).foldl
        (fun result i => result.set ((i + o) % vector.length) (vector.getD i false))
        r0).length = vector.length := by
      rw [foldl_set_length (fun i => (i + o) % vector.length)
        (fun i => vector.getD i false), hr]
    by_cases hjm : (m + o) % vector.length = j
    · have hrot : (j + (vector.length - o % vector.length)) % vector.length = m := by
        rw [← hjm]
        exact rot_cancel vector.length o m hD hmD
      rw [hjm, getD_set_self _ _ _ _ (by rw [hWlen]; exact hj)]
      rw [if_pos (by rw [hrot]; omega), hrot]
    · rw [getD_set_ne _ _ _ _ _ hjm]
      rw [ih (by omega) r0 hr j hj]
      have hne : (j + (vector.length - o % vector.length)) % vector.length ≠ m := by
        intro heq
        apply hjm
        have huncancel := rot_uncancel vector.length o j hD hj
        rw [heq] at huncancel
        exact huncancel
      by_cases hcond : (j + (vector.length - o % vector.length)) % vector.length < m
      · rw [if_pos hcond, if_pos (by omega)]
      · rw [if_neg hcond, if_neg (by omega)]

theorem permute_getD (vector : List Bool) (offset : ℤ) (hoff : 0 ≤ offset)
    (j : ℕ) (hj : j < vector.length) :
    (permute vector offset).getD j false =
      vector.getD
        ((j + (vector.length - offset.toNat % vector.length)) % vector.length) false := by
  have hD : 0 < vector.length := by omega
  unfold permute
  by_cases hpos : 0 < offset
  · rw [if_pos hpos]
    have ho' : 0 < offset.toNat := by omega
    rw [permute_write_getD vector offset.toNat ho' vector.length (le_refl _)
      (List.replicate vector.length false) (List.length_replicate ..) j hj]
    rw [if_pos (Nat.mod_lt _ hD)]
  · rw [if_neg hpos]
    have h0 : offset = 0 := by omega
    subst h0
    rw [getD_map_range _ _ j false hj]
    have e1 : ((-(0 : ℤ)).toNat : ℕ) = 0 := by norm_num
    have e2 : ((0 : ℤ).toNat : ℕ) = 0 := by norm_num
    rw [e1, e2, Nat.zero_mod, Nat.sub_zero, Nat.add_zero, Nat.mod_eq_of_lt hj,
      Nat.add_mod_right, Nat.mod_eq_of_lt hj]

theorem permute_zero (vector : List Bool) : permute vector 0 = vector := by
  apply List.ext_getElem (permute_length vector 0)
  intro j h1 h2
  rw [← List.getD_eq_getElem _ false h1, ← List.getD_eq_getElem _ false h2]
  rw [permute_getD vector 0 (le_refl _) j h2]
  have : ((0 : ℤ).toNat : ℕ) = 0 := rfl
  rw [this, Nat.zero_mod, Nat.sub_zero, Nat.add_mod_right, Nat.mod_eq_of_lt h2]

theorem bind_length (a b : List Bool) : (bind a b).length = min a.length b.length :=
  List.length_zipWith ..

theorem bind_getD (a b : List Bool) (h : a.length = b.length) (j : ℕ)
    (hj : j < a.length) :
    (bind a b).getD j false = xor (a.getD j false) (b.getD j false) := by
  unfold bind
  rw [List.getD_eq_getElem _ false (by rw [List.length_zipWith]; omega),
    List.getElem_zipWith, List.getD_eq_getElem _ false hj,
    List.getD_eq_getElem _ false (by omega)]

theorem permute_bind (a b : List Bool) (h : a.length = b.length) (offset : ℤ)
    (hoff : 0 ≤ offset) :
    permute (bind a b) offset = bind (permute a offset) (permute b offset) := by
  have hab : (bind a b).length = a.length := by rw [bind_length]; omega
  apply List.ext_getElem
  · rw [permute_length, bind_length, bind_length, permute_length, permute_length]
  · intro j h1 h2
    have hj : j < a.length := by rwa [permute_length, hab] at h1
    have hD : 0 < a.length := by omega
    rw [← List.getD_eq_getElem _ false h1, ← List.getD_eq_getElem _ false h2]
    rw [permute_getD _ offset hoff j (by rw [hab]; exact hj), hab]
    rw [bind_getD a b h _ (Nat.mod_lt _ hD)]
    rw [bind_getD (permute a offset) (permute b offset)
      (by rw [permute_length, permute_length, h]) j (by rw [permute_length]; exact hj)]
    rw [permute_getD a offset hoff j hj, permute_getD b offset hoff j (by omega), ← h]

theorem mod_lt_cancel_of_eq (D : ℕ) (a b m : ℕ) (ha : a < D) (hb : b < D)
    (hab : (a + m) % D = (b + m) % D) : a = b := by
  have h2 : a % D = b % D := Nat.ModEq.add_right_cancel' m hab
  rwa [Nat.mod_eq_of_lt ha, Nat.mod_eq_of_lt hb] at h2

theorem permute_permute_one (vector : List Bool) (k : ℤ) (hk : 0 ≤ k) :
    permute (permute vector k) 1 = permute vector (k + 1) := by
  apply List.ext_getElem
  · rw [permute_length, permute_length, permute_length]
  · intro j h1 h2
    have hj : j < vector.length := by rwa [permute_length, permute_length] at h1
    have hD : 0 < vector.length := by omega
    rw [← List.getD_eq_getElem _ false h1, ← List.getD_eq_getElem _ false h2]
    rw [permute_getD (permute vector k) 1 (by norm_num) j
      (by rw [permute_length]; exact hj)]
    rw [permute_length]
    rw [permute_getD vector k hk _ (Nat.mod_lt _ hD)]
    rw [permute_getD vector (k + 1) (by omega) j hj]
    congr 1
    have htk : (k + 1).toNat = k.toNat + 1 := by omega
    have ht1 : ((1 : ℤ).toNat : ℕ) = 1 := rfl
    rw [htk, ht1]
    set D := vector.length
    have hL : (((j + (D - 1 % D)) % D + (D - k.toNat % D)) % D + (k.toNat + 1)) % D
        = j := by
      have s1 : (((j + (D - 1 % D)) % D + (D - k.toNat % D)) % D + k.toNat) % D
          = (j + (D - 1 % D)) % D :=
        rot_uncancel D k.toNat _ hD (Nat.mod_lt _ hD)
      have s2 : ((j + (D - 1 % D)) % D + 1) % D = j := rot_uncancel D 1 j hD hj
      have s3 : ((j + (D - 1 % D)) % D + (D - k.toNat % D)) % D + (k.toNat + 1)
          = (((j + (D - 1 % D)) % D + (D - k.toNat % D)) % D + k.toNat) + 1 := by ring
      rw [s3, ← Nat.mod_add_mod, s1, s2]
    have hR : ((j + (D - (k.toNat + 1) % D)) % D + (k.toNat + 1)) % D = j :=
      rot_uncancel D (k.toNat + 1) j hD hj
    exact mod_lt_cancel_of_eq D _ _ (k.toNat + 1) (Nat.mod_lt _ hD) (Nat.mod_lt _ hD)
      (hL.trans hR.symm)

theorem foldl_bind_length (D : ℕ) :
    ∀ (l : List (List Bool)) (first : List Bool), first.length = D →
      (∀ x ∈ l, x.length = D) → (l.foldl bind first).length = D := by
  intro l
  induction l with
  | nil => intro first hf _; exact hf
  | cons x t ih =>
    intro first hf hl
    rw [List.foldl_cons]
    exact ih _ (by rw [bind_length, hf, hl x (List.mem_cons_self ..)]; exact min_self D)
      (fun y hy => hl y (List.mem_cons_of_mem _ hy))

theorem foldl_bind_permute_one (D : ℕ) :
    ∀ (l : List (List Bool)) (first : List Bool), first.length = D →
      (∀ x ∈ l, x.length = D) →
      permute (l.foldl bind first) 1 =
        (l.map (fun v => permute v 1)).foldl bind (permute first 1) := by
  intro l
  induction l with
  | nil => intro first _ _; rfl
  | cons x t ih =>
    intro first hf hl
    rw [List.foldl_cons, List.map_cons, List.foldl_cons]
    rw [← permute_bind first x (by rw [hf, hl x (List.mem_cons_self ..)]) 1 (by norm_num)]
    exact ih (bind first x)
      (by rw [bind_length, hf, hl x (List.mem_cons_self ..)]; exact min_self D)
      (fun y hy => hl y (List.mem_cons_of_mem _ hy))

theorem bind_fold_append (A : List (List Bool)) (e : List Bool) (h : A ≠ []) :
    bind_fold (A ++ [e]) = bind (bind_fold A) e := by
  obtain ⟨a0, A2, rfl⟩ := List.exists_cons_of_ne_nil h
  show (A2 ++ [e]).foldl bind a0 = bind (A2.foldl bind a0) e
  rw [List.foldl_append, List.foldl_cons, List.foldl_nil]

theorem permute_nil (offset : ℤ) : permute [] offset = [] := by
  unfold permute
  split <;> rfl

theorem permute_bind_fold_one (D : ℕ) (l : List (List Bool))
    (hl : ∀ x ∈ l, x.length = D) :
    permute (bind_fold l) 1 = bind_fold (l.map (fun v => permute v 1)) := by
  cases l with
  | nil => exact permute_nil 1
  | cons first rest =>
    show permute (rest.foldl bind first) 1 =
      (rest.map (fun v => permute v 1)).foldl bind (permute first 1)
    exact foldl_bind_permute_one D rest first (hl first (List.mem_cons_self ..))
      (fun y hy => hl y (List.mem_cons_of_mem _ hy))

/-- C2: `encode_timeseries` — fold of `bind(permute(r, 1), window[i])` over the
window — equals the spec's closed form, in which timestamp `i` contributes its
spatial hypervector rotated by `n - 1 - i` positions and all contributions are
XOR-bound together.  All window vectors must share the hypervector
dimension `D > 0`. -/
theorem C2_ngram_equivalence (D : ℕ) (window : List (List Bool)) (hD : 0 < D)
    (hlen : ∀ v ∈ window, v.length = D) :
    encode_timeseries window = ngram_closed_form window := by
  induction window using List.reverseRecOn with
  | nil => rfl
  | append_singleton es e ih =>
    have he : e.length = D := hlen e (by simp)
    have hes : ∀ v ∈ es, v.length = D := fun v hv => hlen v (by simp [hv])
    cases es with
    | nil =>
      have h1 : encode_timeseries [e] = e := rfl
      have h2 : ngram_closed_form [e] = permute e 0 := rfl
      rw [show ([] : List (List Bool)) ++ [e] = [e] from rfl, h1, h2, permute_zero]
    | cons f rest =>
      rw [show (f :: rest) ++ [e] = f :: (rest ++ [e]) from rfl]
      have hL : encode_timeseries (f :: (rest ++ [e])) =
          bind (permute (encode_timeseries (f :: rest)) 1) e := by
        show (rest ++ [e]).foldl (fun r encoded => bind (permute r 1) encoded) f = _
        rw [List.foldl_append, List.foldl_cons, List.foldl_nil]
        rfl
      rw [hL, ih hes]
      have hlen2 : (f :: (rest ++ [e])).length = (f :: rest).length + 1 := by simp
      have hR : ngram_closed_form (f :: (rest ++ [e])) =
          bind_fold ((List.range ((f :: rest).length + 1)).map (fun i =>
            permute ((f :: (rest ++ [e])).getD i [])
              (((f :: rest).length + 1 - 1 - i : ℕ) : ℤ))) := by
        unfold ngram_closed_form
        rw [hlen2]
      rw [hR, List.range_succ, List.map_append, List.map_cons, List.map_nil]
      have hlast : permute ((f :: (rest ++ [e])).getD (f :: rest).length [])
          (((f :: rest).length + 1 - 1 - (f :: rest).length : ℕ) : ℤ) = e := by
        have hg : (f :: (rest ++ [e])).getD (f :: rest).length [] = e := by
          show (f :: (rest ++ [e])).getD (rest.length + 1) [] = e
          rw [List.getD_cons_succ, List.getD_eq_getElem _ _ (by simp)]
          exact List.getElem_concat_length rest e rest.length rfl (by simp)
        rw [hg, show ((f :: rest).length + 1 - 1 - (f :: rest).length : ℕ) = 0
          from by omega]
        exact permute_zero e
      rw [hlast]
      have hpref : (List.range (f :: rest).length).map (fun i =>
          permute ((f :: (rest ++ [e])).getD i [])
            (((f :: rest).length + 1 - 1 - i : ℕ) : ℤ)) =
          (List.range (f :: rest).length).map (fun i =>
            permute ((f :: rest).getD i []) (((f :: rest).length - i : ℕ) : ℤ)) := by
        apply List.map_congr_left
        intro i hi
        have hin : i < (f :: rest).length := List.mem_range.mp hi
        have hgd : (f :: (rest ++ [e])).getD i [] = (f :: rest).getD i [] := by
          rw [show f :: (rest ++ [e]) = (f :: rest) ++ [e] from rfl]
          exact List.getD_append _ _ _ _ hin
        have hcast : (((f :: rest).length + 1 - 1 - i : ℕ) : ℤ) =
            (((f :: rest).length - i : ℕ) : ℤ) := by omega
        rw [hgd, hcast]
      rw [hpref]
      rw [bind_fold_append _ _ (by simp)]
      congr 1
      have hunf : ngram_closed_form (f :: rest) =
          bind_fold ((List.range (f :: rest).length).map (fun i =>
            permute ((f :: rest).getD i []) (((f :: rest).length - 1 - i : ℕ) : ℤ))) :=
        rfl
      have hg0len : ∀ x ∈ (List.range (f :: rest).length).map (fun i =>
          permute ((f :: rest).getD i []) (((f :: rest).length - 1 - i : ℕ) : ℤ)),
          x.length = D := by
        intro x hx
        obtain ⟨i, hi, rfl⟩ := List.mem_map.mp hx
        have hin : i < (f :: rest).length := List.mem_range.mp hi
        rw [permute_length, List.getD_eq_getElem _ _ hin]
        exact hes _ (List.getElem_mem ..)
      rw [hunf, permute_bind_fold_one D _ hg0len, List.map_map]
      congr 1
      apply List.map_congr_left
      intro i hi
      have hin : i < (f :: rest).length := List.mem_range.mp hi
      show permute (permute ((f :: rest).getD i [])
        (((f :: rest).length - 1 - i : ℕ) : ℤ)) 1 = _
      rw [permute_permute_one _ _ (Int.natCast_nonneg _)]
      congr 1
      omega

/-- Witness for C2: a two-timestamp window in dimension 2. -/
theorem C2_ngram_equivalence_witness :
    0 < 2 ∧
    encode_timeseries [[true, false], [false, false]] =
      ngram_closed_form [[true, false], [false, false]] :=
  ⟨by norm_num,
    C2_ngram_equivalence 2 [[true, false], [false, false]] (by norm_num) (by decide)⟩

/-! ### C1 : B-driven continuous item memory ladder distances -/

theorem range_split (a b : ℕ) (h : a ≤ b) :
    List.range b = List.range a ++ List.range' a (b - a) := by
  rw [List.range_eq_range', List.range_eq_range']
  have h2 := List.range'_append 0 a (b - a) 1
  simp only [Nat.zero_add, Nat.one_mul] at h2
  rw [show b = b - a + a from by omega, Nat.add_sub_cancel]
  exact h2.symm

theorem foldl_flip_length :
    ∀ (idxs : List ℕ) (v : List Bool),
      (idxs.foldl (fun w idx => w.set idx (!w.getD idx false)) v).length = v.length := by
  intro idxs
  induction idxs with
  | nil => intro v; rfl
  | cons x t ih => intro v; rw [List.foldl_cons, ih, List.length_set]

theorem flips_foldl_getD :
    ∀ (idxs : List ℕ) (v : List Bool) (p : ℕ), p < v.length →
      (∀ x ∈ idxs, x < v.length) →
      ((idxs.foldl (fun w idx => w.set idx (!w.getD idx false)) v)).getD p false
        = if idxs.count p % 2 = 1 then !(v.getD p false) else v.getD p false := by
  intro idxs
  induction idxs with
  | nil =>
    intro v p _ _
    rw [List.foldl_nil, List.count_nil, if_neg (by omega)]
  | cons x t ih =>
    intro v p hp hall
    have hxlen : x < v.length := hall x (List.mem_cons_self ..)
    have hlen : (v.set x (!v.getD x false)).length = v.length := List.length_set ..
    rw [List.foldl_cons,
      ih _ p (by rw [hlen]; exact hp)
        (fun y hy => by rw [hlen]; exact hall y (List.mem_cons_of_mem _ hy)),
      List.count_cons]
    by_cases hxp : p = x
    · subst hxp
      rw [if_pos (beq_self_eq_true p), getD_set_self v p _ false hxlen]
      by_cases hc : t.count p % 2 = 1
      · rw [if_pos hc, if_neg (by omega), Bool.not_not]
      · rw [if_neg hc, if_pos (by omega)]
    · rw [if_neg (fun h => hxp (beq_iff_eq.mp h).symm), Nat.add_zero,
        getD_set_ne v x p _ false (fun h => hxp h.symm)]

theorem cim_flip_segment_eq_foldl_map (permutation : List ℕ) (curr : List Bool)
    (prev_target target : ℕ) :
    cim_flip_segment permutation curr prev_target target =
      ((List.range' prev_target (target - prev_target)).map
          (fun k => permutation.getD k 0)).foldl
        (fun w idx => w.set idx (!w.getD idx false)) curr := by
  unfold cim_flip_segment
  rw [List.foldl_map]

theorem cim_flip_segment_length (permutation : List ℕ) (curr : List Bool)
    (a b : ℕ) : (cim_flip_segment permutation curr a b).length = curr.length := by
  rw [cim_flip_segment_eq_foldl_map, foldl_flip_length]

theorem cim_level_length (D : ℕ) (B : List ℤ) (permutation : List ℕ)
    (base : List Bool) :
    ∀ l, (cim_level D B permutation base l).length = base.length := by
  intro l
  induction l with
  | zero => rfl
  | succ l ih =>
    show (cim_flip_segment _ _ _ _).length = _
    rw [cim_flip_segment_length, ih]

theorem cim_target_le_D (D : ℕ) (B : List ℤ) : ∀ l, cim_target D B l ≤ D := by
  intro l
  cases l with
  | zero => exact Nat.zero_le D
  | succ l => exact min_le_right ..

theorem cim_target_mono (D : ℕ) (B : List ℤ) {i j : ℕ} (h : i ≤ j) :
    cim_target D B i ≤ cim_target D B j := by
  induction j with
  | zero =>
    have h0 : i = 0 := by omega
    rw [h0]
  | succ j ih =>
    by_cases hij : i = j + 1
    · rw [hij]
    · have hij2 : i ≤ j := by omega
      have hstep : cim_target D B j ≤ cim_target D B (j + 1) := by
        have h1 := cim_target_le_D D B j
        show cim_target D B j ≤ min (cim_target D B j + (B.getD j 0).toNat) D
        omega
      exact le_trans (ih hij2) hstep

theorem cim_target_min (D : ℕ) (B : List ℤ) :
    ∀ l, cim_target D B l = min (((B.take l).map Int.toNat).sum) D := by
  intro l
  induction l with
  | zero => simp [cim_target]
  | succ l ih =>
    show min (cim_target D B l + (B.getD l 0).toNat) D = _
    rw [ih, List.take_succ]
    have hsum : ((B.take l ++ B[l]?.toList).map Int.toNat).sum =
        ((B.take l).map Int.toNat).sum + (B.getD l 0).toNat := by
      rw [List.map_append, List.sum_append]
      by_cases hl : l < B.length
      · rw [List.getElem?_eq_getElem hl]
        rw [List.getD_eq_getElem _ _ hl]
        simp
      · rw [List.getElem?_eq_none (by omega)]
        rw [List.getD_eq_default _ _ (by omega)]
        simp
    rw [hsum]
    omega

theorem cim_level_getD (D : ℕ) (B : List ℤ) (permutation : List ℕ)
    (base : List Bool) (hbase : base.length = D)
    (hmaps : ∀ k < D, permutation.getD k 0 < D) :
    ∀ (l p : ℕ), p < D →
      (cim_level D B permutation base l).getD p false =
        if ((List.range (cim_target D B l)).map
            (fun k => permutation.getD k 0)).count p % 2 = 1
        then !(base.getD p false) else base.getD p false := by
  intro l
  induction l with
  | zero =>
    intro p hp
    show base.getD p false = _
    rw [show cim_target D B 0 = 0 from rfl, List.range_zero, List.map_nil,
      List.count_nil, if_neg (by omega)]
  | succ l ih =>
    intro p hp
    show (cim_flip_segment permutation (cim_level D B permutation base l)
      (cim_target D B l) (cim_target D B (l + 1))).getD p false = _
    rw [cim_flip_segment_eq_foldl_map]
    have hlevlen : (cim_level D B permutation base l).length = D := by
      rw [cim_level_length, hbase]
    have hseg : ∀ x ∈ (List.range' (cim_target D B l)
        (cim_target D B (l + 1) - cim_target D B l)).map
          (fun k => permutation.getD k 0),
        x < (cim_level D B permutation base l).length := by
      intro x hx
      obtain ⟨k, hk, rfl⟩ := List.mem_map.mp hx
      rw [List.mem_range'_1] at hk
      have hk2 : k < D := by
        have := cim_target_le_D D B (l + 1)
        omega
      rw [hlevlen]
      exact hmaps _ hk2
    rw [flips_foldl_getD _ _ p (by rw [hlevlen]; exact hp) hseg, ih p hp]
    have hsplit : List.range (cim_target D B (l + 1)) =
        List.range (cim_target D B l) ++
          List.range' (cim_target D B l)
            (cim_target D B (l + 1) - cim_target D B l) :=
      range_split _ _ (cim_target_mono D B (Nat.le_succ l))
    rw [hsplit, List.map_append, List.count_append]
    set c1 := ((List.range (cim_target D B l)).map
      (fun k => permutation.getD k 0)).count p
    set c2 := ((List.range' (cim_target D B l)
      (cim_target D B (l + 1) - cim_target D B l)).map
        (fun k => permutation.getD k 0)).count p
    by_cases h1 : c1 % 2 = 1 <;> by_cases h2 : c2 % 2 = 1
    · rw [if_pos h2, if_pos h1, if_neg (by omega), Bool.not_not]
    · rw [if_neg h2, if_pos h1, if_pos (by omega)]
    · rw [if_pos h2, if_neg h1, if_pos (by omega)]
    · rw [if_neg h2, if_neg h1, if_neg (by omega)]

theorem cim_prefix_nodup (D : ℕ) (permutation : List ℕ)
    (hinj : ∀ k1 < D, ∀ k2 < D,
      permutation.getD k1 0 = permutation.getD k2 0 → k1 = k2)
    (m : ℕ) (hm : m ≤ D) :
    ((List.range m).map (fun k => permutation.getD k 0)).Nodup :=
  (List.nodup_range m).map_on (fun x hx y hy hf =>
    hinj x (lt_of_lt_of_le (List.mem_range.mp hx) hm)
      y (lt_of_lt_of_le (List.mem_range.mp hy) hm) hf)

theorem ite_flip_ne (b : Bool) (c1 c2 : ℕ) :
    ((if c1 % 2 = 1 then !b else b) ≠ (if c2 % 2 = 1 then !b else b)) ↔
      c1 % 2 ≠ c2 % 2 := by
  by_cases h1 : c1 % 2 = 1 <;> by_cases h2 : c2 % 2 = 1
  · rw [if_pos h1, if_pos h2]
    constructor
    · intro h; exact absurd rfl h
    · intro h; omega
  · rw [if_pos h1, if_neg h2]
    constructor
    · intro _; omega
    · intro _; cases b <;> simp
  · rw [if_neg h1, if_pos h2]
    constructor
    · intro _; omega
    · intro _; cases b <;> simp
  · rw [if_neg h1, if_neg h2]
    constructor
    · intro h; exact absurd rfl h
    · intro h; omega

/-- Core distance law of the B-driven ladder, for an arbitrary level-0
vector: levels `i <= j` differ in exactly `target j - target i` positions. -/
theorem cim_hamming_core (D : ℕ) (B : List ℤ) (permutation : List ℕ)
    (base : List Bool) (hbase : base.length = D)
    (hmaps : ∀ k < D, permutation.getD k 0 < D)
    (hinj : ∀ k1 < D, ∀ k2 < D,
      permutation.getD k1 0 = permutation.getD k2 0 → k1 = k2)
    (i j : ℕ) (hij : i ≤ j) :
    hamming_count D (cim_level D B permutation base i)
        (cim_level D B permutation base j)
      = cim_target D B j - cim_target D B i := by
  have hTij : cim_target D B i ≤ cim_target D B j := cim_target_mono D B hij
  have hTjD : cim_target D B j ≤ D := cim_target_le_D D B j
  set segmap := (List.range' (cim_target D B i)
    (cim_target D B j - cim_target D B i)).map
      (fun k => permutation.getD k 0) with hsegdef
  have hsplit : List.range (cim_target D B j) =
      List.range (cim_target D B i) ++
        List.range' (cim_target D B i)
          (cim_target D B j - cim_target D B i) :=
    range_split _ _ hTij
  have hnodupj : ((List.range (cim_target D B j)).map
      (fun k => permutation.getD k 0)).Nodup :=
    cim_prefix_nodup D permutation hinj _ hTjD
  have hnodupseg : segmap.Nodup := by
    rw [hsplit, List.map_append] at hnodupj
    exact hnodupj.sublist (List.sublist_append_right _ _)
  have hpoint : ∀ p ∈ Finset.range D,
      ((cim_level D B permutation base i).getD p false ≠
        (cim_level D B permutation base j).getD p false) ↔ p ∈ segmap := by
    intro p hp
    have hpD : p < D := Finset.mem_range.mp hp
    rw [cim_level_getD D B permutation base hbase hmaps i p hpD,
      cim_level_getD D B permutation base hbase hmaps j p hpD]
    have hcount : ((List.range (cim_target D B j)).map
        (fun k => permutation.getD k 0)).count p =
        ((List.range (cim_target D B i)).map
          (fun k => permutation.getD k 0)).count p + segmap.count p := by
      rw [hsplit, List.map_append, List.count_append]
    have hcs : segmap.count p ≤ 1 := List.nodup_iff_count_le_one.mp hnodupseg p
    rw [hcount, ite_flip_ne]
    constructor
    · intro h
      have hne0 : segmap.count p ≠ 0 := by
        intro h0
        rw [h0, Nat.add_zero] at h
        exact h rfl
      exact List.count_pos_iff.mp (by omega)
    · intro hmem
      have hpos : 0 < segmap.count p := List.count_pos_iff.mpr hmem
      have hcs1 : segmap.count p = 1 := by omega
      rw [hcs1]
      omega
  unfold hamming_count
  have hfc : (Finset.range D).filter
      (fun p => (cim_level D B permutation base i).getD p false ≠
        (cim_level D B permutation base j).getD p false) =
      (Finset.range D).filter (fun p => p ∈ segmap) :=
    Finset.filter_congr hpoint
  have hfin : (Finset.range D).filter (fun p => p ∈ segmap) = segmap.toFinset := by
    ext p
    simp only [Finset.mem_filter, Finset.mem_range, List.mem_toFinset]
    constructor
    · exact fun h => h.2
    · intro hm
      refine ⟨?_, hm⟩
      obtain ⟨k, hk, rfl⟩ := List.mem_map.mp hm
      rw [List.mem_range'_1] at hk
      exact hmaps k (by omega)
  rw [hfc, hfin, List.toFinset_card_of_nodup hnodupseg, hsegdef,
    List.length_map, List.length_range']

theorem generate_random_hv_with_rng_length :
    ∀ (dimension state : ℕ),
      (generate_random_hv_with_rng dimension state).1.length = dimension := by
  intro dimension
  induction dimension with
  | zero => intro state; rfl
  | succ d ih =>
    intro state
    show (_ :: (generate_random_hv_with_rng d _).1).length = d + 1
    rw [List.length_cons, ih]

/-- C1: counterexample — with `D = 2`, `L = 3`, `B = [2, 1]` and the identity
permutation, the cumulative flip target is already clamped at `D` after the
first step, so levels 1 and 2 are identical (Hamming distance 0), while the
claim's `min(B_1, D) = 1`. -/
theorem C1_counterexample :
    hamming_count 2
        ((init_continuous_item_memory_with_B 2 3 [2, 1] [0, 1]).getD 1 [])
        ((init_continuous_item_memory_with_B 2 3 [2, 1] [0, 1]).getD 2 [])
      ≠ min ((((([2, 1] : List ℤ).drop 1).take (2 - 1)).map Int.toNat).sum) 2 := by
  decide

/-- C1 (amended): for levels `i <= j < L` of the B-driven continuous item
memory (nonnegative `B` of length `L - 1`, a permutation of `[0, D)`), the
Hamming distance between level `i` and level `j` equals
`min(S_j, D) - min(S_i, D)` where `S_l` is the sum of the first `l` entries of
`B` — the cumulative flip counts are clamped at `D` before differencing, not
the partial sum `S_j - S_i` itself — and the distance is nondecreasing in the
level gap. -/
theorem C1_cim_ladder_distance (D L : ℕ) (B : List ℤ) (permutation : List ℕ)
    (hBlen : B.length = L - 1) (hBpos : ∀ b ∈ B, 0 ≤ b)
    (hplen : permutation.length = D)
    (hmaps : ∀ k < D, permutation.getD k 0 < D)
    (hinj : ∀ k1 < D, ∀ k2 < D,
      permutation.getD k1 0 = permutation.getD k2 0 → k1 = k2)
    (i j : ℕ) (hij : i ≤ j) (hjL : j < L) :
    hamming_count D
        ((init_continuous_item_memory_with_B D L B permutation).getD i [])
        ((init_continuous_item_memory_with_B D L B permutation).getD j [])
      = min (((B.take j).map Int.toNat).sum) D
        - min (((B.take i).map Int.toNat).sum) D ∧
    (∀ j2, j ≤ j2 → j2 < L →
      hamming_count D
          ((init_continuous_item_memory_with_B D L B permutation).getD i [])
          ((init_continuous_item_memory_with_B D L B permutation).getD j [])
        ≤ hamming_count D
            ((init_continuous_item_memory_with_B D L B permutation).getD i [])
            ((init_continuous_item_memory_with_B D L B permutation).getD j2 [])) := by
  have hL : ¬ L = 0 := by omega
  have hget : ∀ l, l < L →
      (init_continuous_item_memory_with_B D L B permutation).getD l [] =
        cim_level D B permutation
          (generate_random_hv_with_rng D
            (item_mem_seed_from_permutation permutation)).1 l := by
    intro l hl
    unfold init_continuous_item_memory_with_B
    rw [if_neg hL]
    exact getD_map_range L _ l [] hl
  have hbase : (generate_random_hv_with_rng D
      (item_mem_seed_from_permutation permutation)).1.length = D :=
    generate_random_hv_with_rng_length D _
  rw [hget i (by omega), hget j hjL]
  constructor
  · rw [cim_hamming_core D B permutation _ hbase hmaps hinj i j hij,
      cim_target_min, cim_target_min]
  · intro j2 hj2 hj2L
    rw [hget j2 hj2L,
      cim_hamming_core D B permutation _ hbase hmaps hinj i j hij,
      cim_hamming_core D B permutation _ hbase hmaps hinj i j2 (le_trans hij hj2)]
    have hmono : cim_target D B j ≤ cim_target D B j2 := cim_target_mono D B hj2
    omega

/-- Witness for C1: `D = 2`, `L = 3`, `B = [1, 1]`, identity permutation,
levels 0 and 2. -/
theorem C1_cim_ladder_distance_witness :
    (([1, 1] : List ℤ).length = 3 - 1 ∧ (∀ b ∈ ([1, 1] : List ℤ), 0 ≤ b) ∧
      ([0, 1] : List ℕ).length = 2 ∧
      (∀ k < 2, ([0, 1] : List ℕ).getD k 0 < 2) ∧
      (∀ k1 < 2, ∀ k2 < 2,
        ([0, 1] : List ℕ).getD k1 0 = ([0, 1] : List ℕ).getD k2 0 → k1 = k2)) ∧
    (hamming_count 2
        ((init_continuous_item_memory_with_B 2 3 [1, 1] [0, 1]).getD 0 [])
        ((init_continuous_item_memory_with_B 2 3 [1, 1] [0, 1]).getD 2 [])
      = min (((([1, 1] : List ℤ).take 2).map Int.toNat).sum) 2
        - min (((([1, 1] : List ℤ).take 0).map Int.toNat).sum) 2 ∧
     (∀ j2, 2 ≤ j2 → j2 < 3 →
      hamming_count 2
          ((init_continuous_item_memory_with_B 2 3 [1, 1] [0, 1]).getD 0 [])
          ((init_continuous_item_memory_with_B 2 3 [1, 1] [0, 1]).getD 2 [])
        ≤ hamming_count 2
            ((init_continuous_item_memory_with_B 2 3 [1, 1] [0, 1]).getD 0 [])
            ((init_continuous_item_memory_with_B 2 3 [1, 1] [0, 1]).getD j2 []))) :=
  ⟨⟨by decide, by decide, by decide, by decide, by decide⟩,
    C1_cim_ladder_distance 2 3 [1, 1] [0, 1] (by decide) (by decide) (by decide)
      (by decide) (by decide) 0 2 (by decide) (by decide)⟩

end HDC
